import Mathlib

/-!
Verification of the minesweeper board engine and game state machine.

Shallow embedding of the repository's JavaScript source:
  * `src/js/board.js`   — class `GameBoard` (grid storage, adjacency, mine
    placement, cell reveal);
  * `src/js/script.js`  — class `Minesweeper` (click handlers, flood reveal,
    chord reveal, win/loss detection);
  * `src/js/state.js`   — class `MinesweeperState`;
  * `src/js/utils.js`   — `validateBoardSize`, `validateMineCount`.

Modelling conventions:
  * A DOM cell element is modelled by the record `Cell` holding the three
    pieces of game-relevant data the code stores on it: `dataset.mine`
    (`mine : Bool`), the `"revealed"` css class (`revealed : Bool`) and
    `dataset.mark` (`mark : Mark`).  Pure display state (text content, the
    `highlight` / `mine` / `text-N` css classes, cell size) is not part of
    the model.
  * `GameBoard.cells` (a height × width array of arrays) is modelled by
    `Board.cells : List (List Cell)`; `GameBoard.minePositions` (a JS `Set`
    of `"r,c"` strings) by a `Finset (Nat × Nat)`.
  * `Math.random()` draws inside `placeMines` are modelled by an explicit
    stream of candidate coordinates (`draws : List (Nat × Nat)`); the JS
    `while` loop is recursion on that stream (the loop that runs forever
    when the stream is exhausted simply returns the partial board, and
    theorems about completed placement carry a completion hypothesis).
  * `GameBoard.revealCell(row, col)` reads `this.cells[row][col]` and would
    throw on an out-of-range coordinate; the model makes it a total
    function that refuses out-of-range coordinates.  All call sites in the
    source pass in-range coordinates, so the two agree on every reachable
    call.
  * The `cellCache` / `adjacentCellsCache` memoisation layers are pure
    caches over data that never changes while they are alive; the board
    functions are modelled as their recomputation, and for the adjacency
    cache an explicit cache-threading model is given and proved
    observationally equivalent.
  * The iterative flood loop of `Minesweeper.revealAdjacentCells`
    (`src/js/script.js` lines 289-318) is modelled with an explicit fuel
    parameter so that every definition is structurally recursive and
    executable by `decide`; the fuel passed by the game operation is proved
    sufficient (the result is unchanged by any larger fuel).
-/

/-- `dataset.mark` of a cell: `""`, `"flag"` or `"question"`. -/
inductive Mark where
  | none
  | flag
  | question
deriving DecidableEq, Repr

/-- The game-relevant state of one DOM cell element: `dataset.mine`,
the `"revealed"` css class, and `dataset.mark`. -/
structure Cell where
  mine : Bool
  revealed : Bool
  mark : Mark
deriving DecidableEq, Repr

instance : Inhabited Cell := ⟨⟨false, false, Mark.none⟩⟩

/-- `GameBoard` from `src/js/board.js`: dimensions, the height × width cell
matrix, and the `minePositions` set. -/
structure Board where
  width : Nat
  height : Nat
  cells : List (List Cell)
  minePositions : Finset (Nat × Nat)
deriving DecidableEq

namespace Board

/-- Cell lookup `this.cells[row][col]` (default cell on out-of-range access;
the source never accesses out of range). -/
def cellAt (b : Board) (p : Nat × Nat) : Cell :=
  (b.cells.getD p.1 []).getD p.2 default

/-- A coordinate addresses a real grid position: `0 ≤ row < height` and
`0 ≤ col < width` (the natural-number half of `isValidCell`). -/
def validPos (b : Board) (p : Nat × Nat) : Prop :=
  p.1 < b.height ∧ p.2 < b.width

instance (b : Board) (p : Nat × Nat) : Decidable (b.validPos p) := by
  unfold validPos; infer_instance

/-- The cell matrix really is height × width (true of every board the source
builds via `initializeBoard`). -/
def WF (b : Board) : Prop :=
  b.cells.length = b.height ∧ ∀ row ∈ b.cells, row.length = b.width

instance (b : Board) : Decidable (b.WF) := by
  unfold WF; exact instDecidableAnd

/-- Point update of one cell of the matrix (no-op out of range). -/
def modifyCell (b : Board) (p : Nat × Nat) (f : Cell → Cell) : Board :=
  { b with cells :=
      b.cells.set p.1 ((b.cells.getD p.1 []).set p.2 (f (b.cellAt p))) }

/-- `GameBoard.isValidCell(row, col)` from `src/js/board.js` lines 68-71,
on the possibly-negative coordinates `row + i`, `col + j`. -/
def isValidCell (height width : Nat) (row col : Int) : Bool :=
  0 ≤ row && row < (height : Int) && 0 ≤ col && col < (width : Int)

/-- The nine `(i, j)` offsets of the double loop in `getAdjacentCells`
(`for i in -1..1, for j in -1..1`), in iteration order.  Note the loop does
not skip `(0, 0)`. -/
def adjOffsets : List (Int × Int) :=
  [(-1, -1), (-1, 0), (-1, 1), (0, -1), (0, 0), (0, 1), (1, -1), (1, 0), (1, 1)]

/-- `GameBoard.getAdjacentCells(row, col)` from `src/js/board.js` lines
48-66, as the list of coordinates it collects (the source stores the cell
elements themselves; each carries its coordinates in `dataset.row/col`).
The memoisation layer is modelled separately below and proved
observationally equivalent. -/
def adjacentList (height width : Nat) (p : Nat × Nat) : List (Nat × Nat) :=
  adjOffsets.filterMap fun ij =>
    let newRow : Int := (p.1 : Int) + ij.1
    let newCol : Int := (p.2 : Int) + ij.2
    if isValidCell height width newRow newCol then
      some (newRow.toNat, newCol.toNat)
    else
      Option.none

/-- Board-level view of `getAdjacentCells`. -/
def getAdjacentCells (b : Board) (p : Nat × Nat) : List (Nat × Nat) :=
  adjacentList b.height b.width p

/-- `GameBoard.countAdjacentMines(row, col)` from `src/js/board.js` lines
73-77: the number of cells with `dataset.mine === "true"` in the adjacency
list. -/
def countAdjacentMines (b : Board) (p : Nat × Nat) : Nat :=
  ((b.getAdjacentCells p).filter fun q => (b.cellAt q).mine).length

/-- `GameBoard.revealCell(row, col)` from `src/js/board.js` lines 79-97:
refuse a revealed or marked cell, otherwise add the `"revealed"` class and
return whether the (lazily cached) adjacent-mine count is zero.  The
`cellCache` is recomputation (mines never change while it is alive); the
returned flag is `mineCount === 0`.  An out-of-range coordinate, on which
the source would throw, is refused. -/
def revealCell (b : Board) (p : Nat × Nat) : Board × Bool :=
  if ¬ b.validPos p ∨ (b.cellAt p).revealed ∨ (b.cellAt p).mark ≠ Mark.none then
    (b, false)
  else
    let b2 := b.modifyCell p fun c => { c with revealed := true }
    (b2, b2.countAdjacentMines p == 0)

/-- Add one mine: `this.minePositions.add(position)` together with
`this.cells[row][col].dataset.mine = "true"`. -/
def addMine (b : Board) (p : Nat × Nat) : Board :=
  { b.modifyCell p (fun c => { c with mine := true }) with
    minePositions := insert p b.minePositions }

/-- `GameBoard.placeMines(mineCount, excludeRow, excludeCol)` from
`src/js/board.js` lines 34-46.  The stream `draws` supplies the successive
`Math.floor(Math.random() * …)` coordinate draws; the `while` loop keeps
consuming draws until `minePositions.size` reaches `mineCount`, skipping
duplicates and the excluded cell. -/
def placeMines (b : Board) (mineCount : Nat) (ex : Nat × Nat) :
    List (Nat × Nat) → Board
  | [] => b
  | d :: rest =>
    if b.minePositions.card < mineCount then
      if d ∉ b.minePositions ∧ d ≠ ex then
        (b.addMine d).placeMines mineCount ex rest
      else
        b.placeMines mineCount ex rest
    else
      b

/-- All grid positions of a board, row-major. -/
def allPositions (b : Board) : List (Nat × Nat) :=
  (List.range b.height).flatMap fun r => (List.range b.width).map fun c => (r, c)

/-- How many cells do not yet carry the `"revealed"` class. -/
def unrevealedCount (b : Board) : Nat :=
  (b.allPositions.filter fun p => !(b.cellAt p).revealed).length

/-- How many cells carry the `"revealed"` class (`isRevealed == true`). -/
def revealedCellCount (b : Board) : Nat :=
  (b.allPositions.filter fun p => (b.cellAt p).revealed).length

/-- A fresh `initializeBoard()` grid: every cell unmined, unrevealed,
unmarked, and `minePositions` empty. -/
def mkBoard (width height : Nat) : Board :=
  { width := width
    height := height
    cells := List.replicate height (List.replicate width default)
    minePositions := ∅ }

end Board

/-- One pass of the inner `for (const cell of adjacentCells)` loop of
`Minesweeper.revealAdjacentCells` (`src/js/script.js` lines 298-310):
the board after the pass, the coordinates pushed onto the queue, and
whether the `hitMine` break fired. -/
structure FloodStep where
  board : Board
  pushes : List (Nat × Nat)
  hitMine : Bool
deriving DecidableEq

namespace Board

/-- The inner loop body: skip revealed or flagged cells; an unrevealed,
unflagged mine sets `hitMine` and breaks; otherwise `revealCell`, pushing
the coordinate when it reports a zero adjacent-mine count. -/
def revealNeighbors (b : Board) : List (Nat × Nat) → FloodStep
  | [] => ⟨b, [], false⟩
  | p :: rest =>
    if (b.cellAt p).revealed = false ∧ (b.cellAt p).mark ≠ Mark.flag then
      if (b.cellAt p).mine then
        ⟨b, [], true⟩
      else
        let r := b.revealCell p
        let s := r.1.revealNeighbors rest
        ⟨s.board, (if r.2 then [p] else []) ++ s.pushes, s.hitMine⟩
    else
      b.revealNeighbors rest

/-- The outer `while (queue.length > 0 && !hitMine)` loop of
`Minesweeper.revealAdjacentCells`, with explicit fuel (the loop makes at
most `2 * area + 1` iterations, proved below); returns the final board and
the `hitMine` flag. -/
def floodLoopF : Nat → Board → List (Nat × Nat) → Board × Bool
  | 0, b, _ => (b, false)
  | _ + 1, b, [] => (b, false)
  | fuel + 1, b, q :: qs =>
    let s := b.revealNeighbors (b.getAdjacentCells q)
    if s.hitMine then
      (s.board, true)
    else
      floodLoopF fuel s.board (qs ++ s.pushes)

/-- Fuel that is always sufficient for `floodLoopF` started on a one-element
queue (proved below: any larger fuel gives the same result). -/
def floodFuel (b : Board) : Nat :=
  2 * (b.width * b.height) + 1

end Board

/-- `MinesweeperState` from `src/js/state.js` (the variant with the
`revealedCount` performance counter, which is the one `src/js/script.js`
imports). -/
structure GameState where
  boardWidth : Nat
  boardHeight : Nat
  mineCount : Nat
  gameOver : Bool
  firstClick : Bool
  gameWon : Bool
  leftMouseDown : Bool
  rightMouseDown : Bool
  revealedCount : Nat
deriving DecidableEq, Repr

/-- The `MinesweeperState` constructor. -/
def GameState.new (width height mines : Nat) : GameState :=
  { boardWidth := width
    boardHeight := height
    mineCount := mines
    gameOver := false
    firstClick := true
    gameWon := false
    leftMouseDown := false
    rightMouseDown := false
    revealedCount := 0 }

/-- The game-relevant state of a running `Minesweeper` instance:
`this.state` and `this.board`. -/
structure Game where
  state : GameState
  board : Board
deriving DecidableEq

/-- `validateBoardSize(size, maxSize)` from `src/js/utils.js` line 13-15:
`Math.max(5, Math.min(size, maxSize))`. -/
def validateBoardSize (size maxSize : Nat) : Nat :=
  max 5 (min size maxSize)

/-- `validateMineCount(count, maxCount)` from `src/js/utils.js` lines 17-19:
`Math.max(1, Math.min(count, maxCount - 1))`. -/
def validateMineCount (count maxCount : Nat) : Nat :=
  max 1 (min count (maxCount - 1))

/-- `MAX_BOARD_SIZE` from the constants module. -/
def MAX_BOARD_SIZE : Nat := 30

namespace Minesweeper

/-- `Minesweeper.endGame(won)` (`src/js/script.js` lines 422-448), restricted
to the game-relevant state: stop is external (timer), the bomb display on
mine cells is presentation; the state transition is
`gameOver = true; gameWon = won`. -/
def endGame (g : Game) (won : Bool) : Game :=
  { g with state := { g.state with gameOver := true, gameWon := won } }

/-- `Minesweeper.checkWin()` from `src/js/script.js` lines 450-457: if not
already won, compare the maintained `revealedCount` counter with
`boardWidth * boardHeight - mineCount` (JS arithmetic, hence over `Int`)
and end the game as won on equality. -/
def checkWin (g : Game) : Game :=
  if g.state.gameWon then g
  else if (g.state.revealedCount : Int) =
      (g.state.boardWidth : Int) * (g.state.boardHeight : Int) -
        (g.state.mineCount : Int) then
    endGame g true
  else g

/-- `Minesweeper.revealAdjacentCells(row, col)` from `src/js/script.js`
lines 289-318: run the queue-based flood loop from `[[row, col]]`, then
either `endGame(false)` (a mine was hit) or `checkWin()`. -/
def revealAdjacentCells (g : Game) (p : Nat × Nat) : Game :=
  let r := Board.floodLoopF g.board.floodFuel g.board [p]
  let g2 := { g with board := r.1 }
  if r.2 then endGame g2 false else checkWin g2

/-- `Minesweeper.handleBoardClick(event)` from `src/js/script.js` lines
186-214, for a click landing on the cell at `p`.  `draws` feeds the
deferred `placeMines` call on the first click. -/
def handleBoardClick (g : Game) (draws : List (Nat × Nat)) (p : Nat × Nat) :
    Game :=
  if g.state.gameOver then g
  else
    let g :=
      if g.state.firstClick then
        { state := { g.state with firstClick := false }
          board := g.board.placeMines g.state.mineCount p draws }
      else g
    if (g.board.cellAt p).mark ≠ Mark.none then g
    else if (g.board.cellAt p).mine then endGame g false
    else
      let r := g.board.revealCell p
      let g2 := { g with board := r.1 }
      if r.2 then revealAdjacentCells g2 p else checkWin g2

/-- `Minesweeper.handleBoardRightClick(event)` from `src/js/script.js`
lines 216-233: cycle the mark `"" → flag → question → ""` on an unrevealed
cell, then `checkWin()`. -/
def handleBoardRightClick (g : Game) (p : Nat × Nat) : Game :=
  if g.state.gameOver then g
  else if (g.board.cellAt p).revealed then g
  else
    let m' := match (g.board.cellAt p).mark with
      | Mark.none => Mark.flag
      | Mark.flag => Mark.question
      | Mark.question => Mark.none
    checkWin { g with board := g.board.modifyCell p fun c => { c with mark := m' } }

/-- `Minesweeper.isRevealedNumber(cell)` from `src/js/script.js` lines
275-279: the cell is revealed and its text content is a number, i.e. its
adjacent-mine count is positive (text is put on a revealed cell exactly
when the count is positive, and mines never change afterwards). -/
def isRevealedNumber (b : Board) (p : Nat × Nat) : Bool :=
  (b.cellAt p).revealed && decide (0 < b.countAdjacentMines p)

/-- `Minesweeper.handleDualButtonPress(cell)` from `src/js/script.js` lines
247-260: on a revealed numbered cell, count flagged cells in the adjacency
list; on an exact match with the displayed number run the flood reveal,
otherwise only highlight (presentation, no game state change). -/
def handleDualButtonPress (g : Game) (p : Nat × Nat) : Game :=
  if ¬ isRevealedNumber g.board p then g
  else
    let flagCount :=
      ((g.board.getAdjacentCells p).filter fun q =>
        (g.board.cellAt q).mark = Mark.flag).length
    if flagCount = g.board.countAdjacentMines p then
      revealAdjacentCells g p
    else
      g

/-- `Minesweeper.handleBoardMouseDown(event)` from `src/js/script.js` lines
235-245 with `button` the mouse button (`0` left, `2` right). -/
def handleBoardMouseDown (g : Game) (p : Nat × Nat) (button : Nat) : Game :=
  if g.state.gameOver then g
  else
    let st := { g.state with
      leftMouseDown := if button = 0 then true else g.state.leftMouseDown
      rightMouseDown := if button = 2 then true else g.state.rightMouseDown }
    let g2 := { g with state := st }
    if st.leftMouseDown && st.rightMouseDown then
      handleDualButtonPress g2 p
    else
      g2

/-- The state constructed by `Minesweeper.startNewGame()` (`src/js/script.js`
lines 320-338): note the third argument is validated against the raw
`settings.width * settings.height`, not the validated dimensions. -/
def startNewGameState (width height mines : Nat) : GameState :=
  GameState.new
    (validateBoardSize width MAX_BOARD_SIZE)
    (validateBoardSize height MAX_BOARD_SIZE)
    (validateMineCount mines (width * height))

/-- A freshly constructed game: `new MinesweeperState(w, h, m)` plus the
fresh board built by `initBoard`/`initializeBoard`. -/
def freshGame (width height mines : Nat) : Game :=
  { state := GameState.new width height mines
    board := Board.mkBoard width height }

end Minesweeper

/-! ### Basic board lemmas -/

namespace Board

theorem cellAt_modifyCell (b : Board) (p q : Nat × Nat) (f : Cell → Cell) :
    (b.modifyCell p f).cellAt q =
      if q = p ∧ p.1 < b.cells.length ∧ p.2 < (b.cells.getD p.1 []).length then
        f (b.cellAt p)
      else
        b.cellAt q := by
  unfold modifyCell cellAt
  rcases q with ⟨qr, qc⟩
  rcases p with ⟨pr, pc⟩
  simp only [List.getD_eq_getElem?_getD, List.getElem?_set]
  by_cases hr : pr = qr
  · subst hr
    by_cases hlen : pr < b.cells.length
    · have hget : b.cells[pr]?.getD [] = b.cells[pr] := by
        simp [List.getElem?_eq_getElem hlen]
      simp only [if_pos rfl, if_pos hlen, Option.getD_some, hget]
      by_cases hc : pc = qc
      · subst hc
        simp only [List.getElem?_set]
        by_cases hclen : pc < b.cells[pr].length
        · simp [hclen, hlen, hget]
        · have : b.cells[pr][pc]? = Option.none := List.getElem?_eq_none (by omega)
          simp [hclen, hlen, hget, this, List.getElem?_set]
      · have hpair : ¬ ((pr, qc) = (pr, pc)) := by
          intro h; exact hc (congrArg Prod.snd h).symm
        simp [List.getElem?_set, hc, hpair]
    · have hnone : b.cells[pr]? = Option.none := List.getElem?_eq_none (by omega)
      have hpair : ¬ ((pr, qc) = (pr, pc) ∧ pr < b.cells.length ∧
          pc < (b.cells.getD pr []).length) := by
        intro h; exact hlen h.2.1
      simp [hlen, hnone, hpair]
  · have hpair : ¬ ((qr, qc) = (pr, pc)) := by
      intro h; exact hr (congrArg Prod.fst h).symm
    simp [hr, hpair]

theorem width_modifyCell (b : Board) (p : Nat × Nat) (f : Cell → Cell) :
    (b.modifyCell p f).width = b.width := rfl

theorem height_modifyCell (b : Board) (p : Nat × Nat) (f : Cell → Cell) :
    (b.modifyCell p f).height = b.height := rfl

theorem minePositions_modifyCell (b : Board) (p : Nat × Nat) (f : Cell → Cell) :
    (b.modifyCell p f).minePositions = b.minePositions := rfl

theorem WF_modifyCell {b : Board} (h : b.WF) (p : Nat × Nat) (f : Cell → Cell) :
    (b.modifyCell p f).WF := by
  obtain ⟨hlen, hrow⟩ := h
  refine ⟨by simpa [modifyCell] using hlen, ?_⟩
  intro row hmem
  by_cases hp : p.1 < b.cells.length
  · rcases List.mem_or_eq_of_mem_set hmem with h' | h'
    · exact hrow row h'
    · subst h'
      rw [List.length_set]
      have : b.cells.getD p.1 [] ∈ b.cells := by
        rw [List.getD_eq_getElem?_getD]
        have := List.getElem?_eq_getElem hp
        simp [this]
      exact hrow _ this
  · have hset : b.cells.set p.1 ((b.cells.getD p.1 []).set p.2
        (f (b.cellAt p))) = b.cells := by
      apply List.set_eq_of_length_le
      omega
    unfold modifyCell at hmem
    simp only [hset] at hmem
    exact hrow row hmem

theorem cellAt_modifyCell_self {b : Board} (hWF : b.WF) {p : Nat × Nat}
    (hp : b.validPos p) (f : Cell → Cell) :
    (b.modifyCell p f).cellAt p = f (b.cellAt p) := by
  obtain ⟨hlen, hrow⟩ := hWF
  have h1 : p.1 < b.cells.length := by rw [hlen]; exact hp.1
  have hmem : b.cells.getD p.1 [] ∈ b.cells := by
    rw [List.getD_eq_getElem?_getD]
    have := List.getElem?_eq_getElem h1
    simp [this]
  have h2 : p.2 < (b.cells.getD p.1 []).length := by
    rw [hrow _ hmem]; exact hp.2
  rw [cellAt_modifyCell, if_pos ⟨rfl, h1, h2⟩]

theorem cellAt_modifyCell_ne (b : Board) {p q : Nat × Nat} (h : q ≠ p)
    (f : Cell → Cell) :
    (b.modifyCell p f).cellAt q = b.cellAt q := by
  rw [cellAt_modifyCell]
  simp [h]

/-- Membership in `allPositions` is exactly validity of the coordinate. -/
theorem mem_allPositions (b : Board) (p : Nat × Nat) :
    p ∈ b.allPositions ↔ b.validPos p := by
  unfold allPositions validPos
  constructor
  · intro h
    rcases List.mem_flatMap.mp h with ⟨r, hr, hmap⟩
    rcases List.mem_map.mp hmap with ⟨c, hc, hpc⟩
    rw [← hpc]
    exact ⟨List.mem_range.mp hr, List.mem_range.mp hc⟩
  · intro h
    refine List.mem_flatMap.mpr ⟨p.1, List.mem_range.mpr h.1,
      List.mem_map.mpr ⟨p.2, List.mem_range.mpr h.2, ?_⟩⟩
    rfl

theorem allPositions_nodup (b : Board) : b.allPositions.Nodup := by
  unfold allPositions
  rw [List.nodup_flatMap]
  constructor
  · intro r _
    exact (List.nodup_range b.width).map fun c₁ c₂ h => congrArg Prod.snd h
  · have key : ∀ r₁ r₂ : Nat, r₁ ≠ r₂ →
        List.Disjoint ((List.range b.width).map fun c => (r₁, c))
          ((List.range b.width).map fun c => (r₂, c)) := by
      intro r₁ r₂ hne x hx1 hx2
      rcases List.mem_map.mp hx1 with ⟨c1, _, h1⟩
      rcases List.mem_map.mp hx2 with ⟨c2, _, h2⟩
      apply hne
      rw [← h1] at h2
      exact (congrArg Prod.fst h2).symm
    exact (List.nodup_range b.height).imp fun hab => key _ _ hab

theorem length_allPositions (b : Board) :
    b.allPositions.length = b.height * b.width := by
  unfold allPositions
  rw [List.length_flatMap]
  simp [Function.comp_def, List.map_const, List.sum_replicate]

theorem unrevealedCount_le (b : Board) :
    b.unrevealedCount ≤ b.height * b.width := by
  calc b.unrevealedCount ≤ b.allPositions.length := List.length_filter_le _ _
    _ = b.height * b.width := length_allPositions b

/-- Generic counting helper: flipping one list element from satisfying `f`
to failing `g` (with `f` and `g` agreeing elsewhere) drops the filter
length by one. -/
theorem filter_length_flip {α : Type} [DecidableEq α] {l : List α} {p : α}
    (hl : l.Nodup) (hp : p ∈ l) {f g : α → Bool} (hf : f p = true)
    (hg : g p = false) (hfg : ∀ x, x ≠ p → f x = g x) :
    (l.filter g).length + 1 = (l.filter f).length := by
  induction l with
  | nil => cases hp
  | cons a l ih =>
    rcases List.mem_cons.mp hp with h | h
    · subst h
      have hnotin : p ∉ l := (List.nodup_cons.mp hl).1
      have hfilter : l.filter f = l.filter g := by
        apply List.filter_congr
        intro x hx
        exact hfg x (fun he => hnotin (he ▸ hx))
      simp [List.filter_cons, hf, hg, hfilter]
    · have hna : a ≠ p := fun he => (List.nodup_cons.mp hl).1 (he ▸ h)
      have := ih (List.nodup_cons.mp hl).2 h
      by_cases hfa : f a = true
      · have hga : g a = true := (hfg a hna) ▸ hfa
        simp [List.filter_cons, hfa, hga]
        omega
      · have hga : g a = false := by
          rw [← hfg a hna]; simpa using hfa
        simp only [Bool.not_eq_true] at hfa
        simp [List.filter_cons, hfa, hga, this]

/-- Membership characterisation of the adjacency list: exactly the in-range
coordinates at Chebyshev distance at most 1 (including the centre). -/
theorem mem_adjacentList {height width : Nat} {p q : Nat × Nat} :
    q ∈ adjacentList height width p ↔
      q.1 < height ∧ q.2 < width ∧
        ((q.1 : Int) - p.1).natAbs ≤ 1 ∧ ((q.2 : Int) - p.2).natAbs ≤ 1 := by
  unfold adjacentList
  rw [List.mem_filterMap]
  constructor
  · rintro ⟨⟨i, j⟩, hmem, hij⟩
    have hoff : i.natAbs ≤ 1 ∧ j.natAbs ≤ 1 := by
      have hall : ∀ ij ∈ adjOffsets, ij.1.natAbs ≤ 1 ∧ ij.2.natAbs ≤ 1 := by
        decide
      exact hall (i, j) hmem
    dsimp only at hij
    by_cases hv : isValidCell height width ((p.1 : Int) + i) ((p.2 : Int) + j) = true
    · rw [if_pos hv] at hij
      unfold isValidCell at hv
      simp only [Bool.and_eq_true, decide_eq_true_eq] at hv
      obtain ⟨⟨⟨h1, h2⟩, h3⟩, h4⟩ := hv
      obtain ⟨hi1, hi2⟩ := hoff
      cases hij
      refine ⟨?_, ?_, ?_, ?_⟩ <;> dsimp only <;> omega
    · rw [if_neg hv] at hij
      cases hij
  · rintro ⟨h1, h2, h3, h4⟩
    refine ⟨((q.1 : Int) - p.1, (q.2 : Int) - p.2), ?_, ?_⟩
    · have hi : (q.1 : Int) - p.1 = -1 ∨ (q.1 : Int) - p.1 = 0 ∨
          (q.1 : Int) - p.1 = 1 := by omega
      have hj : (q.2 : Int) - p.2 = -1 ∨ (q.2 : Int) - p.2 = 0 ∨
          (q.2 : Int) - p.2 = 1 := by omega
      rcases hi with hi | hi | hi <;> rcases hj with hj | hj | hj <;>
        rw [hi, hj] <;> decide
    · have hv : isValidCell height width ((p.1 : Int) + ((q.1 : Int) - p.1))
          ((p.2 : Int) + ((q.2 : Int) - p.2)) = true := by
        unfold isValidCell
        simp only [Bool.and_eq_true, decide_eq_true_eq]
        omega
      dsimp only
      rw [if_pos hv]
      have e1 : (((p.1 : Int) + ((q.1 : Int) - p.1))).toNat = q.1 := by omega
      have e2 : (((p.2 : Int) + ((q.2 : Int) - p.2))).toNat = q.2 := by omega
      rw [e1, e2]

/-- Every entry of the adjacency list is a valid coordinate. -/
theorem validPos_of_mem_getAdjacentCells {b : Board} {p q : Nat × Nat}
    (h : q ∈ b.getAdjacentCells p) : b.validPos q := by
  rcases mem_adjacentList.mp h with ⟨h1, h2, _, _⟩
  exact ⟨h1, h2⟩

/-- The centre cell appears in its own adjacency list when valid. -/
theorem self_mem_getAdjacentCells {b : Board} {p : Nat × Nat}
    (h : b.validPos p) : p ∈ b.getAdjacentCells p := by
  exact mem_adjacentList.mpr ⟨h.1, h.2, by omega, by omega⟩

/-- Adjacency membership is symmetric. -/
theorem mem_getAdjacentCells_symm {b : Board} {p q : Nat × Nat}
    (hp : b.validPos p) (h : q ∈ b.getAdjacentCells p) :
    p ∈ b.getAdjacentCells q := by
  rcases mem_adjacentList.mp h with ⟨h1, h2, h3, h4⟩
  exact mem_adjacentList.mpr ⟨hp.1, hp.2, by omega, by omega⟩

/-- The adjacency list has no duplicates. -/
theorem nodup_adjacentList (height width : Nat) (p : Nat × Nat) :
    (adjacentList height width p).Nodup := by
  unfold adjacentList
  apply List.Nodup.filterMap
  · rintro ⟨i1, j1⟩ ⟨i2, j2⟩ ⟨r, c⟩ h1 h2
    dsimp only at h1 h2
    by_cases hv1 : isValidCell height width ((p.1 : Int) + i1) ((p.2 : Int) + j1) = true
    · by_cases hv2 : isValidCell height width ((p.1 : Int) + i2) ((p.2 : Int) + j2) = true
      · rw [if_pos hv1] at h1
        rw [if_pos hv2] at h2
        simp only [Option.mem_def, Option.some.injEq, Prod.mk.injEq] at h1 h2
        unfold isValidCell at hv1 hv2
        simp only [Bool.and_eq_true, decide_eq_true_eq] at hv1 hv2
        obtain ⟨e11, e12⟩ := h1
        obtain ⟨e21, e22⟩ := h2
        have hi : i1 = i2 := by omega
        have hj : j1 = j2 := by omega
        rw [hi, hj]
      · rw [if_neg hv2] at h2
        simp at h2
    · rw [if_neg hv1] at h1
      simp at h1
  · unfold adjOffsets
    decide

/-- The updated cell is either the image under `f` or untouched. -/
theorem cellAt_modifyCell_cases (b : Board) (p q : Nat × Nat) (f : Cell → Cell) :
    (b.modifyCell p f).cellAt q = f (b.cellAt q) ∨
      (b.modifyCell p f).cellAt q = b.cellAt q := by
  rw [cellAt_modifyCell]
  split
  · rename_i h
    rw [h.1]
    left
    rfl
  · right
    rfl

theorem validPos_congr {b b' : Board} (hh : b'.height = b.height)
    (hw : b'.width = b.width) {q : Nat × Nat} :
    b'.validPos q ↔ b.validPos q := by
  unfold validPos
  rw [hh, hw]

theorem countAdjacentMines_congr {b b' : Board} (hh : b'.height = b.height)
    (hw : b'.width = b.width)
    (hm : ∀ q, (b'.cellAt q).mine = (b.cellAt q).mine) (p : Nat × Nat) :
    b'.countAdjacentMines p = b.countAdjacentMines p := by
  unfold countAdjacentMines getAdjacentCells
  rw [hh, hw]
  have : ((adjacentList b.height b.width p).filter fun q => (b'.cellAt q).mine)
      = ((adjacentList b.height b.width p).filter fun q => (b.cellAt q).mine) :=
    List.filter_congr fun q _ => by rw [hm q]
  rw [this]

/-- A zero adjacent-mine count means no cell of the adjacency list (which
includes the centre itself) is mined. -/
theorem countAdjacentMines_eq_zero_iff (b : Board) (p : Nat × Nat) :
    b.countAdjacentMines p = 0 ↔
      ∀ q ∈ b.getAdjacentCells p, (b.cellAt q).mine = false := by
  unfold countAdjacentMines
  rw [List.length_eq_zero, List.filter_eq_nil_iff]
  constructor
  · intro h q hq
    have := h q hq
    simpa using this
  · intro h q hq
    simp [h q hq]

/-! ### `revealCell` case analysis -/

theorem revealCell_refused {b : Board} {p : Nat × Nat}
    (h : ¬ b.validPos p ∨ (b.cellAt p).revealed = true ∨
      (b.cellAt p).mark ≠ Mark.none) :
    b.revealCell p = (b, false) := by
  unfold revealCell
  rw [if_pos]
  rcases h with h | h | h
  · exact Or.inl h
  · exact Or.inr (Or.inl h)
  · exact Or.inr (Or.inr h)

theorem revealCell_success {b : Board} {p : Nat × Nat} (h1 : b.validPos p)
    (h2 : (b.cellAt p).revealed = false) (h3 : (b.cellAt p).mark = Mark.none) :
    b.revealCell p =
      (b.modifyCell p fun c => { c with revealed := true },
       (b.modifyCell p fun c => { c with revealed := true }).countAdjacentMines p
         == 0) := by
  unfold revealCell
  rw [if_neg]
  push_neg
  exact ⟨h1, by simp [h2], h3⟩

theorem revealCell_width (b : Board) (p : Nat × Nat) :
    (b.revealCell p).1.width = b.width := by
  unfold revealCell
  split <;> rfl

theorem revealCell_height (b : Board) (p : Nat × Nat) :
    (b.revealCell p).1.height = b.height := by
  unfold revealCell
  split <;> rfl

theorem revealCell_minePositions (b : Board) (p : Nat × Nat) :
    (b.revealCell p).1.minePositions = b.minePositions := by
  unfold revealCell
  split <;> rfl

theorem revealCell_mine (b : Board) (p q : Nat × Nat) :
    ((b.revealCell p).1.cellAt q).mine = (b.cellAt q).mine := by
  unfold revealCell
  split
  · rfl
  · rcases cellAt_modifyCell_cases b p q (fun c => { c with revealed := true })
      with h | h <;> rw [h]

theorem revealCell_mark (b : Board) (p q : Nat × Nat) :
    ((b.revealCell p).1.cellAt q).mark = (b.cellAt q).mark := by
  unfold revealCell
  split
  · rfl
  · rcases cellAt_modifyCell_cases b p q (fun c => { c with revealed := true })
      with h | h <;> rw [h]

theorem revealCell_count (b : Board) (p q : Nat × Nat) :
    (b.revealCell p).1.countAdjacentMines q = b.countAdjacentMines q :=
  countAdjacentMines_congr (revealCell_height b p) (revealCell_width b p)
    (fun q' => revealCell_mine b p q') q

theorem revealCell_revealed_mono {b : Board} {p q : Nat × Nat}
    (h : (b.cellAt q).revealed = true) :
    ((b.revealCell p).1.cellAt q).revealed = true := by
  unfold revealCell
  split
  · exact h
  · rcases cellAt_modifyCell_cases b p q (fun c => { c with revealed := true })
      with h' | h' <;> rw [h']
    exact h

theorem revealCell_revealed_ne {b : Board} {p q : Nat × Nat} (h : q ≠ p) :
    ((b.revealCell p).1.cellAt q).revealed = (b.cellAt q).revealed := by
  unfold revealCell
  split
  · rfl
  · rw [cellAt_modifyCell_ne b h]

/-- Any newly revealed cell is the target, and the call succeeded on it. -/
theorem revealCell_new_reveal {b : Board} {p q : Nat × Nat}
    (h : ((b.revealCell p).1.cellAt q).revealed = true)
    (h0 : (b.cellAt q).revealed = false) :
    q = p ∧ b.validPos p ∧ (b.cellAt p).mark = Mark.none := by
  by_cases hqp : q = p
  · subst hqp
    refine ⟨rfl, ?_, ?_⟩ <;> by_contra hc
    · rw [revealCell_refused (Or.inl hc)] at h
      rw [h0] at h
      cases h
    · rw [revealCell_refused (Or.inr (Or.inr hc))] at h
      rw [h0] at h
      cases h
  · rw [revealCell_revealed_ne hqp, h0] at h
    cases h

theorem revealCell_WF {b : Board} (hWF : b.WF) (p : Nat × Nat) :
    (b.revealCell p).1.WF := by
  unfold revealCell
  split
  · exact hWF
  · exact WF_modifyCell hWF p _

/-- On success the reveal marks exactly the target cell. -/
theorem revealCell_revealed_self {b : Board} {p : Nat × Nat} (hWF : b.WF)
    (h1 : b.validPos p) (h2 : (b.cellAt p).revealed = false)
    (h3 : (b.cellAt p).mark = Mark.none) :
    ((b.revealCell p).1.cellAt p).revealed = true := by
  rw [revealCell_success h1 h2 h3]
  rw [cellAt_modifyCell_self hWF h1]

/-- On success the number of unrevealed cells drops by exactly one. -/
theorem unrevealedCount_revealCell {b : Board} {p : Nat × Nat} (hWF : b.WF)
    (h1 : b.validPos p) (h2 : (b.cellAt p).revealed = false)
    (h3 : (b.cellAt p).mark = Mark.none) :
    (b.revealCell p).1.unrevealedCount + 1 = b.unrevealedCount := by
  rw [revealCell_success h1 h2 h3]
  unfold unrevealedCount
  have hpos : b.allPositions =
      (b.modifyCell p fun c => { c with revealed := true }).allPositions := rfl
  rw [← hpos]
  apply filter_length_flip (allPositions_nodup b) ((mem_allPositions b p).mpr h1)
  · rw [h2]
    rfl
  · rw [cellAt_modifyCell_self hWF h1]
    rfl
  · intro x hx
    rw [cellAt_modifyCell_ne b hx]

/-- On refusal the board is unchanged, hence so is the count. -/
theorem unrevealedCount_revealCell_le (b : Board) (hWF : b.WF)
    (p : Nat × Nat) :
    (b.revealCell p).1.unrevealedCount ≤ b.unrevealedCount := by
  by_cases h1 : b.validPos p
  · by_cases h2 : (b.cellAt p).revealed = false
    · by_cases h3 : (b.cellAt p).mark = Mark.none
      · have := unrevealedCount_revealCell hWF h1 h2 h3
        omega
      · rw [revealCell_refused (Or.inr (Or.inr h3))]
    · rw [revealCell_refused (Or.inr (Or.inl (by simpa using h2)))]
  · rw [revealCell_refused (Or.inl h1)]

/-- A cell the flood pass may newly reveal: valid, unrevealed, unmarked and
unmined. -/
def elig (b : Board) (q : Nat × Nat) : Prop :=
  b.validPos q ∧ (b.cellAt q).revealed = false ∧
    (b.cellAt q).mark = Mark.none ∧ (b.cellAt q).mine = false

instance (b : Board) (q : Nat × Nat) : Decidable (elig b q) := by
  unfold elig
  infer_instance

/-- Structural facts about one pass of the inner flood loop: grid metadata,
mines and marks are untouched, reveals only grow, and any new reveal is an
eligible member of the scanned list. -/
theorem revealNeighbors_meta (b : Board) (l : List (Nat × Nat)) :
    (b.revealNeighbors l).board.width = b.width ∧
    (b.revealNeighbors l).board.height = b.height ∧
    (b.revealNeighbors l).board.minePositions = b.minePositions ∧
    (∀ q, ((b.revealNeighbors l).board.cellAt q).mine = (b.cellAt q).mine) ∧
    (∀ q, ((b.revealNeighbors l).board.cellAt q).mark = (b.cellAt q).mark) ∧
    (∀ q, (b.cellAt q).revealed = true →
      ((b.revealNeighbors l).board.cellAt q).revealed = true) ∧
    (∀ q, ((b.revealNeighbors l).board.cellAt q).revealed = true →
      (b.cellAt q).revealed = true ∨ (q ∈ l ∧ elig b q)) ∧
    (b.WF → (b.revealNeighbors l).board.WF) := by
  induction l generalizing b with
  | nil =>
    refine ⟨rfl, rfl, rfl, fun _ => rfl, fun _ => rfl, fun _ h => h, ?_, fun h => h⟩
    intro q h
    exact Or.inl h
  | cons p rest ih =>
    unfold revealNeighbors
    split
    · rename_i hguard
      split
      · exact ⟨rfl, rfl, rfl, fun _ => rfl, fun _ => rfl, fun _ h => h,
          fun q h => Or.inl h, fun h => h⟩
      · rename_i hmine
        simp only [Bool.not_eq_true] at hmine
        obtain ⟨ihw, ihh, ihm, ihmine, ihmark, ihmono, ihnew, ihwf⟩ :=
          ih (b.revealCell p).1
        refine ⟨?_, ?_, ?_, ?_, ?_, ?_, ?_, ?_⟩
        · rw [ihw, revealCell_width]
        · rw [ihh, revealCell_height]
        · rw [ihm, revealCell_minePositions]
        · intro q
          rw [ihmine q, revealCell_mine]
        · intro q
          rw [ihmark q, revealCell_mark]
        · intro q h
          exact ihmono q (revealCell_revealed_mono h)
        · intro q h
          rcases ihnew q h with h' | ⟨hmem, helig⟩
          · by_cases hq : (b.cellAt q).revealed = true
            · exact Or.inl hq
            · simp only [Bool.not_eq_true] at hq
              obtain ⟨hqp, hvalid, hmark⟩ := revealCell_new_reveal h' hq
              subst hqp
              exact Or.inr ⟨List.mem_cons_self _ _,
                hvalid, hq, hmark, hmine⟩
          · refine Or.inr ⟨List.mem_cons_of_mem _ hmem, ?_, ?_, ?_, ?_⟩
            · exact (validPos_congr (revealCell_height b p)
                (revealCell_width b p)).mp helig.1
            · by_contra hc
              simp only [Bool.not_eq_false] at hc
              have := revealCell_revealed_mono (p := p) hc
              rw [helig.2.1] at this
              cases this
            · rw [← revealCell_mark b p q]
              exact helig.2.2.1
            · rw [← revealCell_mine b p q]
              exact helig.2.2.2
        · intro h
          exact ihwf (revealCell_WF h p)
    · obtain ⟨ihw, ihh, ihm, ihmine, ihmark, ihmono, ihnew, ihwf⟩ := ih b
      refine ⟨ihw, ihh, ihm, ihmine, ihmark, ihmono, ?_, ihwf⟩
      intro q h
      rcases ihnew q h with h' | ⟨hmem, helig⟩
      · exact Or.inl h'
      · exact Or.inr ⟨List.mem_cons_of_mem _ hmem, helig⟩

/-- Each coordinate pushed by a pass corresponds to a fresh reveal, so the
unrevealed count plus the pushes never grows. -/
theorem revealNeighbors_measure {b : Board} (hWF : b.WF)
    (l : List (Nat × Nat)) :
    (b.revealNeighbors l).board.unrevealedCount +
        (b.revealNeighbors l).pushes.length ≤ b.unrevealedCount ∧
      (b.revealNeighbors l).board.unrevealedCount ≤ b.unrevealedCount := by
  induction l generalizing b with
  | nil => exact ⟨Nat.le_refl _, Nat.le_refl _⟩
  | cons p rest ih =>
    unfold revealNeighbors
    split
    · split
      · exact ⟨Nat.le_refl _, Nat.le_refl _⟩
      · rename_i hguard hmine
        obtain ⟨ih1, ih2⟩ := ih (revealCell_WF hWF p)
        by_cases hsucc : b.validPos p ∧ (b.cellAt p).revealed = false ∧
            (b.cellAt p).mark = Mark.none
        · have hdec := unrevealedCount_revealCell hWF hsucc.1 hsucc.2.1
            hsucc.2.2
          constructor
          · calc (((b.revealCell p).1.revealNeighbors rest).board.unrevealedCount +
                ((if (b.revealCell p).2 then [p] else []) ++
                  ((b.revealCell p).1.revealNeighbors rest).pushes).length)
                ≤ ((b.revealCell p).1.revealNeighbors rest).board.unrevealedCount +
                  (1 + ((b.revealCell p).1.revealNeighbors rest).pushes.length) := by
                  gcongr
                  rw [List.length_append]
                  have : (if (b.revealCell p).2 then [p] else []).length ≤ 1 := by
                    split <;> simp
                  omega
              _ ≤ (b.revealCell p).1.unrevealedCount + 1 := by omega
              _ = b.unrevealedCount := hdec
          · calc ((b.revealCell p).1.revealNeighbors rest).board.unrevealedCount
                ≤ (b.revealCell p).1.unrevealedCount := ih2
              _ ≤ b.unrevealedCount := by omega
        · have hrefused : b.revealCell p = (b, false) := by
            apply revealCell_refused
            push_neg at hsucc
            by_cases h1 : b.validPos p
            · by_cases h2 : (b.cellAt p).revealed = false
              · exact Or.inr (Or.inr (hsucc h1 h2))
              · exact Or.inr (Or.inl (by simpa using h2))
            · exact Or.inl h1
          rw [hrefused] at ih1 ih2 ⊢
          simp only [Bool.false_eq_true, if_false, List.nil_append]
          exact ⟨ih1, ih2⟩
    · exact ih hWF

/-- Exact description of one pass of the inner flood loop when the scanned
list contains no unrevealed, unflagged mine: the pass does not hit a mine,
reveals exactly the eligible members of the list, and pushes exactly those
of them with a zero adjacent-mine count. -/
theorem revealNeighbors_exact {b : Board} (hWF : b.WF) {l : List (Nat × Nat)}
    (hnm : ∀ q ∈ l, (b.cellAt q).mine = true →
      (b.cellAt q).revealed = true ∨ (b.cellAt q).mark = Mark.flag) :
    (b.revealNeighbors l).hitMine = false ∧
    (∀ x, ((b.revealNeighbors l).board.cellAt x).revealed = true ↔
      ((b.cellAt x).revealed = true ∨ (x ∈ l ∧ elig b x))) ∧
    (∀ x, x ∈ (b.revealNeighbors l).pushes ↔
      (x ∈ l ∧ elig b x ∧ b.countAdjacentMines x = 0)) := by
  induction l generalizing b with
  | nil =>
    refine ⟨rfl, fun x => ?_, fun x => ?_⟩ <;> simp [revealNeighbors]
  | cons p rest ih =>
    unfold revealNeighbors
    split
    · rename_i hguard
      split
      · rename_i hmine
        rcases hnm p (List.mem_cons_self _ _) hmine with h | h
        · rw [hguard.1] at h
          cases h
        · exact absurd h hguard.2
      · rename_i hmine
        simp only [Bool.not_eq_true] at hmine
        have hWF1 : (b.revealCell p).1.WF := revealCell_WF hWF p
        have hnm1 : ∀ q ∈ rest, ((b.revealCell p).1.cellAt q).mine = true →
            ((b.revealCell p).1.cellAt q).revealed = true ∨
              ((b.revealCell p).1.cellAt q).mark = Mark.flag := by
          intro q hq hqmine
          rw [revealCell_mine] at hqmine
          rcases hnm q (List.mem_cons_of_mem _ hq) hqmine with h | h
          · exact Or.inl (revealCell_revealed_mono h)
          · rw [revealCell_mark]
            exact Or.inr h
        obtain ⟨iht, ihrev, ihpush⟩ := ih hWF1 hnm1
        by_cases hsucc : b.validPos p ∧ (b.cellAt p).mark = Mark.none
        · have heligp : elig b p := ⟨hsucc.1, hguard.1, hsucc.2, hmine⟩
          have hb1 : ∀ x, (((b.revealCell p).1).cellAt x).revealed = true ↔
              ((b.cellAt x).revealed = true ∨ x = p) := by
            intro x
            by_cases hx : x = p
            · subst hx
              constructor
              · intro _
                exact Or.inr rfl
              · intro _
                exact revealCell_revealed_self hWF hsucc.1 hguard.1 hsucc.2
            · rw [revealCell_revealed_ne hx]
              simp [hx]
          have helig1 : ∀ x, x ≠ p → (elig (b.revealCell p).1 x ↔ elig b x) := by
            intro x hx
            unfold elig
            rw [revealCell_revealed_ne hx, revealCell_mark, revealCell_mine,
              validPos_congr (revealCell_height b p) (revealCell_width b p)]
          have helig1p : ¬ elig (b.revealCell p).1 p := by
            intro hc
            have hrev := revealCell_revealed_self hWF hsucc.1 hguard.1 hsucc.2
            rw [hc.2.1] at hrev
            cases hrev
          refine ⟨iht, ?_, ?_⟩
          · intro x
            rw [ihrev x]
            constructor
            · rintro (h | ⟨hmem, helig⟩)
              · rcases (hb1 x).mp h with h' | h'
                · exact Or.inl h'
                · subst h'
                  exact Or.inr ⟨List.mem_cons_self _ _, heligp⟩
              · by_cases hx : x = p
                · exact absurd helig (hx ▸ helig1p)
                · exact Or.inr ⟨List.mem_cons_of_mem _ hmem,
                    (helig1 x hx).mp helig⟩
            · rintro (h | ⟨hmem, helig⟩)
              · exact Or.inl ((hb1 x).mpr (Or.inl h))
              · by_cases hx : x = p
                · exact Or.inl ((hb1 x).mpr (Or.inr hx))
                · rcases List.mem_cons.mp hmem with h' | h'
                  · exact absurd h' hx
                  · exact Or.inr ⟨h', (helig1 x hx).mpr helig⟩
          · intro x
            rw [List.mem_append, ihpush x]
            have hcnt : ∀ y, (b.revealCell p).1.countAdjacentMines y =
                b.countAdjacentMines y := fun y => revealCell_count b p y
            constructor
            · rintro (h | ⟨hmem, helig, hc⟩)
              · have h2 : (b.revealCell p).2 = true := by
                  by_contra hcontra
                  simp only [Bool.not_eq_true] at hcontra
                  rw [hcontra] at h
                  simp at h
                rw [h2] at h
                simp only [if_true, List.mem_singleton] at h
                have hcp : b.countAdjacentMines p = 0 := by
                  have hs := revealCell_success hsucc.1 hguard.1 hsucc.2
                  rw [hs] at h2
                  simp only [beq_iff_eq] at h2
                  have hc2 := hcnt p
                  rw [hs] at hc2
                  rw [← hc2]
                  exact h2
                rw [h]
                exact ⟨List.mem_cons_self _ _, heligp, hcp⟩
              · by_cases hx : x = p
                · exact absurd helig (hx ▸ helig1p)
                · exact ⟨List.mem_cons_of_mem _ hmem, (helig1 x hx).mp helig,
                    by rw [← hcnt x]; exact hc⟩
            · rintro ⟨hmem, helig, hc⟩
              by_cases hx : x = p
              · left
                have h2 : (b.revealCell p).2 = true := by
                  have hs := revealCell_success hsucc.1 hguard.1 hsucc.2
                  have hc2 := hcnt p
                  rw [hs] at hc2
                  rw [hs]
                  simp only [beq_iff_eq]
                  rw [hc2, ← hx]
                  exact hc
                rw [h2]
                simp [hx]
              · rcases List.mem_cons.mp hmem with h' | h'
                · exact absurd h' hx
                · exact Or.inr ⟨h', (helig1 x hx).mpr helig,
                    by rw [hcnt x]; exact hc⟩
        · have hrefused : b.revealCell p = (b, false) := by
            apply revealCell_refused
            by_cases h1 : b.validPos p
            · refine Or.inr (Or.inr ?_)
              intro hc
              exact hsucc ⟨h1, hc⟩
            · exact Or.inl h1
          have heligp : ¬ elig b p := by
            intro hc
            exact hsucc ⟨hc.1, hc.2.2.1⟩
          rw [hrefused] at iht ihrev ihpush ⊢
          refine ⟨iht, ?_, ?_⟩
          · intro x
            rw [ihrev x]
            constructor
            · rintro (h | ⟨hmem, helig⟩)
              · exact Or.inl h
              · exact Or.inr ⟨List.mem_cons_of_mem _ hmem, helig⟩
            · rintro (h | ⟨hmem, helig⟩)
              · exact Or.inl h
              · rcases List.mem_cons.mp hmem with h' | h'
                · exact absurd (h' ▸ helig) heligp
                · exact Or.inr ⟨h', helig⟩
          · intro x
            simp only [Bool.false_eq_true, if_false, List.nil_append]
            rw [ihpush x]
            constructor
            · rintro ⟨hmem, helig, hc⟩
              exact ⟨List.mem_cons_of_mem _ hmem, helig, hc⟩
            · rintro ⟨hmem, helig, hc⟩
              rcases List.mem_cons.mp hmem with h' | h'
              · exact absurd (h' ▸ helig) heligp
              · exact ⟨h', helig, hc⟩
    · rename_i hguard
      have hng : (b.cellAt p).revealed = true ∨ (b.cellAt p).mark = Mark.flag := by
        by_cases h1 : (b.cellAt p).revealed = true
        · exact Or.inl h1
        · right
          by_contra h2
          exact hguard ⟨by simpa using h1, h2⟩
      have heligp : ¬ elig b p := by
        intro hc
        rcases hng with h | h
        · rw [hc.2.1] at h
          cases h
        · rw [hc.2.2.1] at h
          cases h
      obtain ⟨iht, ihrev, ihpush⟩ := ih hWF
        (fun q hq => hnm q (List.mem_cons_of_mem _ hq))
      refine ⟨iht, ?_, ?_⟩
      · intro x
        rw [ihrev x]
        constructor
        · rintro (h | ⟨hmem, helig⟩)
          · exact Or.inl h
          · exact Or.inr ⟨List.mem_cons_of_mem _ hmem, helig⟩
        · rintro (h | ⟨hmem, helig⟩)
          · exact Or.inl h
          · rcases List.mem_cons.mp hmem with h' | h'
            · exact absurd (h' ▸ helig) heligp
            · exact Or.inr ⟨h', helig⟩
      · intro x
        rw [ihpush x]
        constructor
        · rintro ⟨hmem, helig, hc⟩
          exact ⟨List.mem_cons_of_mem _ hmem, helig, hc⟩
        · rintro ⟨hmem, helig, hc⟩
          rcases List.mem_cons.mp hmem with h' | h'
          · exact absurd (h' ▸ helig) heligp
          · exact ⟨h', helig, hc⟩

/-- If the scanned list contains an unrevealed, unflagged mine, the pass
reports a mine hit (the `break` in the source). -/
theorem revealNeighbors_hit_of_mine {b : Board} {l : List (Nat × Nat)}
    (h : ∃ q ∈ l, (b.cellAt q).revealed = false ∧
      (b.cellAt q).mark ≠ Mark.flag ∧ (b.cellAt q).mine = true) :
    (b.revealNeighbors l).hitMine = true := by
  induction l generalizing b with
  | nil =>
    obtain ⟨q, hq, _⟩ := h
    cases hq
  | cons p rest ih =>
    obtain ⟨q, hq, hq1, hq2, hq3⟩ := h
    unfold revealNeighbors
    split
    · rename_i hguard
      split
      · rfl
      · rename_i hmine
        simp only [Bool.not_eq_true] at hmine
        have hqp : q ≠ p := by
          intro he
          rw [he, hmine] at hq3
          cases hq3
        have hqrest : q ∈ rest := by
          rcases List.mem_cons.mp hq with h' | h'
          · exact absurd h' hqp
          · exact h'
        apply ih
        refine ⟨q, hqrest, ?_, ?_, ?_⟩
        · rw [revealCell_revealed_ne hqp]
          exact hq1
        · rw [revealCell_mark]
          exact hq2
        · rw [revealCell_mine]
          exact hq3
    · rename_i hguard
      have hqp : q ≠ p := by
        intro he
        subst he
        exact hguard ⟨hq1, hq2⟩
      have hqrest : q ∈ rest := by
        rcases List.mem_cons.mp hq with h' | h'
        · exact absurd h' hqp
        · exact h'
      exact ih ⟨q, hqrest, hq1, hq2, hq3⟩

theorem getAdjacentCells_congr {b b0 : Board} (hh : b.height = b0.height)
    (hw : b.width = b0.width) (q : Nat × Nat) :
    b.getAdjacentCells q = b0.getAdjacentCells q := by
  unfold getAdjacentCells
  rw [hh, hw]

/-- Whole-loop preservation: dimensions, mine positions, mines and marks
never change; reveals only grow; every new reveal was eligible on the
starting board.  Holds for every fuel and queue, also across a mine hit. -/
theorem floodLoopF_preserves :
    ∀ (fuel : Nat) (b : Board) (Q : List (Nat × Nat)),
    (Board.floodLoopF fuel b Q).1.width = b.width ∧
    (Board.floodLoopF fuel b Q).1.height = b.height ∧
    (Board.floodLoopF fuel b Q).1.minePositions = b.minePositions ∧
    (∀ q, ((Board.floodLoopF fuel b Q).1.cellAt q).mine = (b.cellAt q).mine) ∧
    (∀ q, ((Board.floodLoopF fuel b Q).1.cellAt q).mark = (b.cellAt q).mark) ∧
    (∀ q, (b.cellAt q).revealed = true →
      ((Board.floodLoopF fuel b Q).1.cellAt q).revealed = true) ∧
    (∀ q, ((Board.floodLoopF fuel b Q).1.cellAt q).revealed = true →
      (b.cellAt q).revealed = true ∨ elig b q) ∧
    (b.WF → (Board.floodLoopF fuel b Q).1.WF) := by
  intro fuel
  induction fuel with
  | zero =>
    intro b Q
    exact ⟨rfl, rfl, rfl, fun _ => rfl, fun _ => rfl, fun _ h => h,
      fun q h => Or.inl h, fun h => h⟩
  | succ fuel ih =>
    intro b Q
    match Q with
    | [] =>
      exact ⟨rfl, rfl, rfl, fun _ => rfl, fun _ => rfl, fun _ h => h,
        fun q h => Or.inl h, fun h => h⟩
    | q :: qs =>
      obtain ⟨mw, mh, mm, mmine, mmark, mmono, mnew, mwf⟩ :=
        revealNeighbors_meta b (b.getAdjacentCells q)
      by_cases hhit : (b.revealNeighbors (b.getAdjacentCells q)).hitMine = true
      · simp only [Board.floodLoopF, hhit, if_true]
        refine ⟨mw, mh, mm, mmine, mmark, mmono, ?_, mwf⟩
        intro x h
        rcases mnew x h with h' | ⟨_, helig⟩
        · exact Or.inl h'
        · exact Or.inr helig
      · simp only [Bool.not_eq_true] at hhit
        simp only [Board.floodLoopF, hhit, Bool.false_eq_true, if_false]
        obtain ⟨iw, ih2, im, imine, imark, imono, inew, iwf⟩ :=
          ih (b.revealNeighbors (b.getAdjacentCells q)).board
            (qs ++ (b.revealNeighbors (b.getAdjacentCells q)).pushes)
        refine ⟨by rw [iw, mw], by rw [ih2, mh], by rw [im, mm], ?_, ?_, ?_, ?_, ?_⟩
        · intro x
          rw [imine x, mmine x]
        · intro x
          rw [imark x, mmark x]
        · intro x h
          exact imono x (mmono x h)
        · intro x h
          rcases inew x h with h' | helig
          · rcases mnew x h' with h'' | ⟨_, helig⟩
            · exact Or.inl h''
            · exact Or.inr helig
          · right
            refine ⟨?_, ?_, ?_, ?_⟩
            · exact (validPos_congr mh mw).mp helig.1
            · by_contra hc
              simp only [Bool.not_eq_false] at hc
              have := mmono x hc
              rw [helig.2.1] at this
              cases this
            · rw [← mmark x]
              exact helig.2.2.1
            · rw [← mmine x]
              exact helig.2.2.2
        · intro h
          exact iwf (mwf h)

/-- The flood loop is insensitive to the fuel once the fuel covers the
loop-variant bound `2 * unrevealed + queue length`: this is the termination
statement for the source's `while` loop. -/
theorem floodLoopF_fuel_irrel :
    ∀ (f1 f2 : Nat) (b : Board) (Q : List (Nat × Nat)), b.WF →
    2 * b.unrevealedCount + Q.length ≤ f1 →
    2 * b.unrevealedCount + Q.length ≤ f2 →
    Board.floodLoopF f1 b Q = Board.floodLoopF f2 b Q := by
  intro f1
  induction f1 with
  | zero =>
    intro f2 b Q hWF h1 h2
    have hQ : Q = [] := by
      cases Q with
      | nil => rfl
      | cons q qs => simp at h1
    subst hQ
    cases f2 <;> rfl
  | succ f1 ih =>
    intro f2 b Q hWF h1 h2
    match Q with
    | [] =>
      cases f2 <;> rfl
    | q :: qs =>
      have hf2 : ∃ f2', f2 = f2' + 1 := by
        cases f2 with
        | zero => simp at h2
        | succ n => exact ⟨n, rfl⟩
      obtain ⟨f2', rfl⟩ := hf2
      simp only [Board.floodLoopF]
      by_cases hhit : (b.revealNeighbors (b.getAdjacentCells q)).hitMine = true
      · simp [hhit]
      · simp only [Bool.not_eq_true] at hhit
        simp only [hhit, Bool.false_eq_true, if_false]
        obtain ⟨hm1, hm2⟩ := revealNeighbors_measure hWF (b.getAdjacentCells q)
        apply ih
        · exact (revealNeighbors_meta b (b.getAdjacentCells q)).2.2.2.2.2.2.2 hWF
        · rw [List.length_append]
          simp only [List.length_cons] at h1
          omega
        · rw [List.length_append]
          simp only [List.length_cons] at h2
          omega

/-- When every queued coordinate has a zero adjacent-mine count, the flood
loop never hits a mine (reveals of mined or marked cells are excluded
separately by `floodLoopF_preserves`). -/
theorem floodLoopF_safe :
    ∀ (fuel : Nat) (b : Board) (Q : List (Nat × Nat)), b.WF →
    (∀ q ∈ Q, b.countAdjacentMines q = 0) →
    (Board.floodLoopF fuel b Q).2 = false := by
  intro fuel
  induction fuel with
  | zero => intro b Q _ _; rfl
  | succ fuel ih =>
    intro b Q hWF hQ
    match Q with
    | [] => rfl
    | q :: qs =>
      have hq0 : b.countAdjacentMines q = 0 := hQ q (List.mem_cons_self _ _)
      have hnm : ∀ x ∈ b.getAdjacentCells q, (b.cellAt x).mine = true →
          (b.cellAt x).revealed = true ∨ (b.cellAt x).mark = Mark.flag := by
        intro x hx hmine
        have := (countAdjacentMines_eq_zero_iff b q).mp hq0 x hx
        rw [this] at hmine
        cases hmine
      obtain ⟨hhit, hrev, hpush⟩ := revealNeighbors_exact hWF hnm
      simp only [Board.floodLoopF, hhit, Bool.false_eq_true, if_false]
      obtain ⟨mw, mh, mm, mmine, mmark, mmono, mnew, mwf⟩ :=
        revealNeighbors_meta b (b.getAdjacentCells q)
      apply ih
      · exact mwf hWF
      · intro x hx
        have hcongr : (b.revealNeighbors (b.getAdjacentCells q)).board.countAdjacentMines x
            = b.countAdjacentMines x :=
          countAdjacentMines_congr mh mw mmine x
        rw [hcongr]
        rcases List.mem_append.mp hx with h | h
        · exact hQ x (List.mem_cons_of_mem _ h)
        · exact ((hpush x).mp h).2.2

/-- Reachability along the flood expansion on the starting board `b`: a
cell is reached when it is an eligible (unrevealed, unmarked, unmined,
valid) member of the adjacency list of the root, or of the adjacency list
of a reached cell whose adjacent-mine count is zero. -/
inductive Reach (b : Board) (root : Nat × Nat) : Nat × Nat → Prop where
  | base {q : Nat × Nat} : q ∈ b.getAdjacentCells root → elig b q →
      Reach b root q
  | step {q x : Nat × Nat} : Reach b root q → b.countAdjacentMines q = 0 →
      x ∈ b.getAdjacentCells q → elig b x → Reach b root x

theorem Reach.elig_of {b : Board} {root x : Nat × Nat}
    (h : Reach b root x) : elig b x := by
  cases h with
  | base _ he => exact he
  | step _ _ _ he => exact he

/-- Master loop invariant for the flood characterisation: starting from a
zero-count root, the loop never hits a mine and the final reveal set is the
initial one plus exactly the `Reach`-able cells. -/
theorem floodLoopF_exact (b0 : Board) (start : Nat × Nat) :
    ∀ (fuel : Nat) (b : Board) (Q : List (Nat × Nat)),
    2 * b.unrevealedCount + Q.length ≤ fuel →
    b.WF →
    b.height = b0.height → b.width = b0.width →
    (∀ x, (b.cellAt x).mark = (b0.cellAt x).mark) →
    (∀ x, (b.cellAt x).mine = (b0.cellAt x).mine) →
    (∀ x, (b0.cellAt x).revealed = true → (b.cellAt x).revealed = true) →
    (∀ x, (b.cellAt x).revealed = true →
      (b0.cellAt x).revealed = true ∨ Reach b0 start x) →
    (∀ q ∈ Q, b0.countAdjacentMines q = 0 ∧ (q = start ∨ Reach b0 start q)) →
    (∀ x, Reach b0 start x →
      (b.cellAt x).revealed = true ∨ ∃ q ∈ Q, Reach b0 q x) →
    (∀ y, (b0.cellAt y).revealed = false → (b.cellAt y).revealed = true →
      b0.countAdjacentMines y = 0 →
      y ∈ Q ∨ ∀ x ∈ b0.getAdjacentCells y, elig b0 x →
        (b.cellAt x).revealed = true) →
    (Board.floodLoopF fuel b Q).2 = false ∧
    (∀ x, ((Board.floodLoopF fuel b Q).1.cellAt x).revealed = true ↔
      ((b0.cellAt x).revealed = true ∨ Reach b0 start x)) := by
  intro fuel
  induction fuel with
  | zero =>
    intro b Q hmeas hWF hh hw hmark hmine hmono hsound hqueue hcomplete hproc
    have hQ : Q = [] := by
      cases Q with
      | nil => rfl
      | cons q qs => simp at hmeas
    subst hQ
    refine ⟨rfl, fun x => ⟨?_, ?_⟩⟩
    · intro h
      exact hsound x h
    · rintro (h | h)
      · exact hmono x h
      · rcases hcomplete x h with h' | ⟨q, hq, _⟩
        · exact h'
        · cases hq
  | succ fuel ih =>
    intro b Q hmeas hWF hh hw hmark hmine hmono hsound hqueue hcomplete hproc
    match Q with
    | [] =>
      refine ⟨rfl, fun x => ⟨?_, ?_⟩⟩
      · intro h
        exact hsound x h
      · rintro (h | h)
        · exact hmono x h
        · rcases hcomplete x h with h' | ⟨q, hq, _⟩
          · exact h'
          · cases hq
    | q :: qs =>
      obtain ⟨hq0, hqreach⟩ := hqueue q (List.mem_cons_self _ _)
      have hadj : b.getAdjacentCells q = b0.getAdjacentCells q :=
        getAdjacentCells_congr hh hw q
      have hcnt : ∀ y, b.countAdjacentMines y = b0.countAdjacentMines y :=
        fun y => countAdjacentMines_congr hh hw hmine y
      have hnm : ∀ x ∈ b.getAdjacentCells q, (b.cellAt x).mine = true →
          (b.cellAt x).revealed = true ∨ (b.cellAt x).mark = Mark.flag := by
        intro x hx hxm
        rw [hadj] at hx
        have hz := (countAdjacentMines_eq_zero_iff b0 q).mp hq0 x hx
        rw [hmine x, hz] at hxm
        cases hxm
      obtain ⟨hhit, hrev, hpush⟩ := revealNeighbors_exact hWF hnm
      obtain ⟨mw, mh, mm, mmine, mmark, mmono, mnew, mwf⟩ :=
        revealNeighbors_meta b (b.getAdjacentCells q)
      have heligof : ∀ x, elig b x → elig b0 x := by
        intro x hx
        refine ⟨(validPos_congr hh hw).mp hx.1, ?_, ?_, ?_⟩
        · by_contra hcon
          simp only [Bool.not_eq_false] at hcon
          have hmx := hmono x hcon
          rw [hx.2.1] at hmx
          cases hmx
        · rw [← hmark x]
          exact hx.2.2.1
        · rw [← hmine x]
          exact hx.2.2.2
      have heligto : ∀ x, elig b0 x → (b.cellAt x).revealed = false →
          elig b x := by
        intro x hx hxr
        exact ⟨(validPos_congr hh hw).mpr hx.1, hxr,
          (hmark x).trans hx.2.2.1, (hmine x).trans hx.2.2.2⟩
      have hreachof : ∀ x, x ∈ b.getAdjacentCells q → elig b x →
          Reach b0 start x := by
        intro x hx he
        rw [hadj] at hx
        rcases hqreach with rfl | hr
        · exact Reach.base hx (heligof x he)
        · exact Reach.step hr hq0 hx (heligof x he)
      have hsub : ∀ x, Reach b0 q x →
          (((b.revealNeighbors (b.getAdjacentCells q)).board.cellAt x).revealed
              = true ∨
            ∃ p' ∈ qs ++ (b.revealNeighbors (b.getAdjacentCells q)).pushes,
              Reach b0 p' x) := by
        intro x hx
        induction hx with
        | base hmem he =>
          rename_i z
          by_cases hz : (b.cellAt z).revealed = true
          · exact Or.inl (mmono z hz)
          · simp only [Bool.not_eq_true] at hz
            left
            apply (hrev z).mpr
            right
            refine ⟨?_, heligto z he hz⟩
            rw [hadj]
            exact hmem
        | step hr hy0 hmem he ihsub =>
          rename_i y z
          rcases ihsub with hyrev | ⟨p', hp', hrp⟩
          · by_cases hyb : (b.cellAt y).revealed = true
            · have hyelig := hr.elig_of
              have hy00 : (b0.cellAt y).revealed = false := hyelig.2.1
              rcases hproc y hy00 hyb hy0 with hymem | hdone
              · rcases List.mem_cons.mp hymem with rfl | hyqs
                · by_cases hzb : (b.cellAt z).revealed = true
                  · exact Or.inl (mmono z hzb)
                  · simp only [Bool.not_eq_true] at hzb
                    left
                    apply (hrev z).mpr
                    right
                    refine ⟨?_, heligto z he hzb⟩
                    rw [hadj]
                    exact hmem
                · exact Or.inr ⟨y, List.mem_append_left _ hyqs,
                    Reach.base hmem he⟩
              · exact Or.inl (mmono z (hdone z hmem he))
            · simp only [Bool.not_eq_true] at hyb
              rcases (hrev y).mp hyrev with h' | ⟨hyl, helby⟩
              · rw [hyb] at h'
                cases h'
              · have hyp : y ∈ (b.revealNeighbors (b.getAdjacentCells q)).pushes := by
                  apply (hpush y).mpr
                  exact ⟨hyl, helby, (hcnt y).trans hy0⟩
                exact Or.inr ⟨y, List.mem_append_right _ hyp,
                  Reach.base hmem he⟩
          · exact Or.inr ⟨p', hp', Reach.step hrp hy0 hmem he⟩
      simp only [Board.floodLoopF, hhit, Bool.false_eq_true, if_false]
      obtain ⟨hm1, hm2⟩ := revealNeighbors_measure hWF (b.getAdjacentCells q)
      apply ih
      · rw [List.length_append]
        simp only [List.length_cons] at hmeas
        omega
      · exact mwf hWF
      · rw [mh, hh]
      · rw [mw, hw]
      · intro x
        rw [mmark x, hmark x]
      · intro x
        rw [mmine x, hmine x]
      · intro x hx
        exact mmono x (hmono x hx)
      · intro x hx
        rcases (hrev x).mp hx with h' | ⟨hmem, helig⟩
        · exact hsound x h'
        · exact Or.inr (hreachof x hmem helig)
      · intro y hy
        rcases List.mem_append.mp hy with h' | h'
        · exact hqueue y (List.mem_cons_of_mem _ h')
        · obtain ⟨hyl, helig, hc⟩ := (hpush y).mp h'
          refine ⟨?_, Or.inr (hreachof y hyl helig)⟩
          rw [← hcnt y]
          exact hc
      · intro x hx
        rcases hcomplete x hx with h' | ⟨q1, hq1, hr1⟩
        · exact Or.inl (mmono x h')
        · rcases List.mem_cons.mp hq1 with rfl | hq1s
          · exact hsub x hr1
          · exact Or.inr ⟨q1, List.mem_append_left _ hq1s, hr1⟩
      · intro y hy0b hyrev hy0c
        by_cases hyb : (b.cellAt y).revealed = true
        · rcases hproc y hy0b hyb hy0c with hymem | hdone
          · rcases List.mem_cons.mp hymem with rfl | hyqs
            · right
              intro x hx he
              rw [← hadj] at hx
              by_cases hxb : (b.cellAt x).revealed = true
              · exact mmono x hxb
              · simp only [Bool.not_eq_true] at hxb
                apply (hrev x).mpr
                exact Or.inr ⟨hx, heligto x he hxb⟩
            · exact Or.inl (List.mem_append_left _ hyqs)
          · right
            intro x hx he
            exact mmono x (hdone x hx he)
        · simp only [Bool.not_eq_true] at hyb
          rcases (hrev y).mp hyrev with h' | ⟨hyl, helby⟩
          · rw [hyb] at h'
            cases h'
          · left
            apply List.mem_append_right
            apply (hpush y).mpr
            exact ⟨hyl, helby, (hcnt y).trans hy0c⟩

/-- Flood-loop characterisation from a zero-count start: no mine is ever
hit, and the final reveal set is exactly the initial one plus the
reachable region. -/
theorem floodFrom_exact (b : Board) (start : Nat × Nat) (hWF : b.WF)
    (hc : b.countAdjacentMines start = 0) :
    (Board.floodLoopF b.floodFuel b [start]).2 = false ∧
    (∀ x, ((Board.floodLoopF b.floodFuel b [start]).1.cellAt x).revealed = true ↔
      ((b.cellAt x).revealed = true ∨ Board.Reach b start x)) := by
  apply floodLoopF_exact b start b.floodFuel b [start]
  · have h1 := unrevealedCount_le b
    have h2 : b.height * b.width = b.width * b.height := Nat.mul_comm _ _
    unfold floodFuel
    simp only [List.length_cons, List.length_nil]
    omega
  · exact hWF
  · rfl
  · rfl
  · intro x
    rfl
  · intro x
    rfl
  · intro x h
    exact h
  · intro x h
    exact Or.inl h
  · intro y hy
    rcases List.mem_cons.mp hy with rfl | h
    · exact ⟨hc, Or.inl rfl⟩
    · cases h
  · intro x hx
    exact Or.inr ⟨start, List.mem_cons_self _ _, hx⟩
  · intro y h1 h2 _
    rw [h1] at h2
    cases h2

end Board

/-! ### Game-operation helper lemmas -/

namespace Minesweeper

theorem checkWin_board (g : Game) : (checkWin g).board = g.board := by
  unfold checkWin endGame
  split
  · rfl
  · split <;> rfl

theorem checkWin_revealedCount (g : Game) :
    (checkWin g).state.revealedCount = g.state.revealedCount := by
  unfold checkWin endGame
  split
  · rfl
  · split <;> rfl

theorem endGame_board (g : Game) (won : Bool) :
    (endGame g won).board = g.board := rfl

/-- `checkWin` declares a win exactly when the game is already won or the
maintained counter equals `boardWidth * boardHeight - mineCount`. -/
theorem checkWin_gameWon_iff (g : Game) :
    (checkWin g).state.gameWon = true ↔
      (g.state.gameWon = true ∨ (g.state.revealedCount : Int) =
        (g.state.boardWidth : Int) * (g.state.boardHeight : Int) -
          (g.state.mineCount : Int)) := by
  unfold checkWin endGame
  split
  · rename_i h
    simp [h]
  · rename_i h
    simp only [Bool.not_eq_true] at h
    split
    · rename_i heq
      simp [heq]
    · rename_i heq
      simp [h, heq]

/-- When the flood from `p` cannot hit a mine (zero count at `p`), the
reveal cascade ends in the win check on the flooded board. -/
theorem revealAdjacentCells_no_hit (g : Game) (p : Nat × Nat)
    (hWF : g.board.WF) (hc : g.board.countAdjacentMines p = 0) :
    revealAdjacentCells g p =
      checkWin { g with
        board := (Board.floodLoopF g.board.floodFuel g.board [p]).1 } := by
  unfold revealAdjacentCells
  have hsafe := Board.floodLoopF_safe g.board.floodFuel g.board [p] hWF
    (by
      intro q hq
      rcases List.mem_cons.mp hq with rfl | h
      · exact hc
      · cases h)
  simp [hsafe]

end Minesweeper

/-! ### C9 -/

/-- C9: configuration validation on new game.  The claim states the
constructed game always satisfies `1 ≤ mineCount ≤ width*height − 1` for
the *constructed* (clamped) dimensions.  Evaluating `startNewGame`'s
validation at the request `(100, 100, 5000)` shows the code clamps the
mine count against the raw product `100 * 100`, so the constructed state
is a 30 × 30 board carrying 5000 mines — far beyond the claimed bound of
`30*30 − 1 = 899`.  (`validateCustomInputs` in the same file clamps
against the validated dimensions, witnessing the intent.) -/
theorem C9_startNewGame_bounds_violated :
    (Minesweeper.startNewGameState 100 100 5000).boardWidth = 30 ∧
    (Minesweeper.startNewGameState 100 100 5000).boardHeight = 30 ∧
    (Minesweeper.startNewGameState 100 100 5000).mineCount = 5000 ∧
    ¬ ((Minesweeper.startNewGameState 100 100 5000).mineCount ≤
        (Minesweeper.startNewGameState 100 100 5000).boardWidth *
          (Minesweeper.startNewGameState 100 100 5000).boardHeight - 1) := by
  decide

/-! ### C7 -/

/-- C7: terminal-state freeze.  Whenever `gameOver` is set (the game is Won
or Lost), a board click (reveal), a right click (flag toggle) and a mouse
press (chord entry point) all return the game completely unchanged: every
handler checks `this.state.gameOver` before doing anything. -/
theorem C7_terminal_freeze (g : Game) (draws : List (Nat × Nat))
    (p : Nat × Nat) (button : Nat) (h : g.state.gameOver = true) :
    Minesweeper.handleBoardClick g draws p = g ∧
    Minesweeper.handleBoardRightClick g p = g ∧
    Minesweeper.handleBoardMouseDown g p button = g := by
  unfold Minesweeper.handleBoardClick Minesweeper.handleBoardRightClick
    Minesweeper.handleBoardMouseDown
  rw [h]
  simp

/-- A game in a terminal (lost) state, used to witness C7. -/
def terminalGame : Game :=
  { state := { GameState.new 5 5 3 with gameOver := true }
    board := Board.mkBoard 5 5 }

theorem C7_terminal_freeze_witness :
    terminalGame.state.gameOver = true ∧
      (Minesweeper.handleBoardClick terminalGame [(1, 1)] (0, 0) = terminalGame ∧
       Minesweeper.handleBoardRightClick terminalGame (0, 0) = terminalGame ∧
       Minesweeper.handleBoardMouseDown terminalGame (0, 0) 0 = terminalGame) :=
  ⟨rfl, C7_terminal_freeze terminalGame [(1, 1)] (0, 0) 0 rfl⟩

/-! ### C4 -/

/-- C4: the game declares a win exactly when `revealedCount` equals
`boardWidth * boardHeight − mineCount` (JS arithmetic, here over `Int`) and
it was not already won; and this condition is what every successful
(non-mine, unmarked) reveal path checks — whether or not it triggers a
flood expansion, the click handler ends in `checkWin`, so the resulting
`gameWon` flag is governed by exactly that equality. -/
theorem C4_win_iff :
    (∀ g : Game, (Minesweeper.checkWin g).state.gameWon = true ↔
      (g.state.gameWon = true ∨ (g.state.revealedCount : Int) =
        (g.state.boardWidth : Int) * (g.state.boardHeight : Int) -
          (g.state.mineCount : Int))) ∧
    (∀ (g : Game) (draws : List (Nat × Nat)) (p : Nat × Nat),
      g.board.WF → g.state.gameOver = false → g.state.firstClick = false →
      (g.board.cellAt p).mark = Mark.none →
      (g.board.cellAt p).mine = false →
      ((Minesweeper.handleBoardClick g draws p).state.gameWon = true ↔
        (g.state.gameWon = true ∨ (g.state.revealedCount : Int) =
          (g.state.boardWidth : Int) * (g.state.boardHeight : Int) -
            (g.state.mineCount : Int)))) := by
  refine ⟨Minesweeper.checkWin_gameWon_iff, ?_⟩
  intro g draws p hWF h1 h2 h3 h4
  unfold Minesweeper.handleBoardClick
  rw [h1]
  simp only [Bool.false_eq_true, if_false]
  rw [h2]
  simp only [Bool.false_eq_true, if_false, h3, ne_eq, not_true_eq_false]
  rw [h4]
  simp only [Bool.false_eq_true, if_false, ite_false]
  by_cases hr : (g.board.revealCell p).2 = true
  · rw [hr]
    simp only [if_true]
    have hsucc : g.board.validPos p ∧ (g.board.cellAt p).revealed = false := by
      by_contra hcon
      push_neg at hcon
      have : g.board.revealCell p = (g.board, false) := by
        apply Board.revealCell_refused
        by_cases hv : g.board.validPos p
        · exact Or.inr (Or.inl (by simpa using hcon hv))
        · exact Or.inl hv
      rw [this] at hr
      cases hr
    have hcz : (g.board.revealCell p).1.countAdjacentMines p = 0 := by
      have hs := Board.revealCell_success hsucc.1 hsucc.2 h3
      rw [hs] at hr ⊢
      simpa using hr
    have hWF2 : (g.board.revealCell p).1.WF := Board.revealCell_WF hWF p
    rw [Minesweeper.revealAdjacentCells_no_hit _ p hWF2 hcz]
    rw [Minesweeper.checkWin_gameWon_iff]
  · simp only [Bool.not_eq_true] at hr
    rw [hr]
    simp only [Bool.false_eq_true, if_false]
    rw [Minesweeper.checkWin_gameWon_iff]

/-- A mid-game position used to witness C4: 5 × 5 board, one mine placed at
`(4, 4)`, the cell `(0, 0)` not yet revealed, counter still zero. -/
def midGame : Game :=
  { state := { GameState.new 5 5 1 with firstClick := false }
    board := (Board.mkBoard 5 5).addMine (4, 4) }

theorem C4_win_iff_witness :
    (midGame.board.WF ∧ midGame.state.gameOver = false ∧
      midGame.state.firstClick = false ∧
      (midGame.board.cellAt (0, 0)).mark = Mark.none ∧
      (midGame.board.cellAt (0, 0)).mine = false) ∧
    ((Minesweeper.checkWin midGame).state.gameWon = true ↔
      (midGame.state.gameWon = true ∨ (midGame.state.revealedCount : Int) =
        (midGame.state.boardWidth : Int) * (midGame.state.boardHeight : Int) -
          (midGame.state.mineCount : Int))) ∧
    ((Minesweeper.handleBoardClick midGame [] (0, 0)).state.gameWon = true ↔
      (midGame.state.gameWon = true ∨ (midGame.state.revealedCount : Int) =
        (midGame.state.boardWidth : Int) * (midGame.state.boardHeight : Int) -
          (midGame.state.mineCount : Int))) :=
  ⟨⟨by decide, by decide, by decide, by decide, by decide⟩,
    C4_win_iff.1 midGame,
    C4_win_iff.2 midGame [] (0, 0) (by decide) (by decide) (by decide)
      (by decide) (by decide)⟩

/-! ### C5 -/

theorem Board.cellAt_addMine (b : Board) (d q : Nat × Nat) :
    (b.addMine d).cellAt q =
      (b.modifyCell d fun c => { c with mine := true }).cellAt q := rfl

theorem Board.addMine_minePositions (b : Board) (d : Nat × Nat) :
    (b.addMine d).minePositions = insert d b.minePositions := rfl

theorem Board.addMine_WF {b : Board} (hWF : b.WF) (d : Nat × Nat) :
    (b.addMine d).WF := by
  have h := Board.WF_modifyCell hWF d fun c => { c with mine := true }
  exact ⟨h.1, h.2⟩

/-- Invariant of the rejection-sampling loop of `placeMines`: the excluded
cell is never added, the `minePositions` set and the per-cell mine flags
stay in sync, every added position comes from the draw stream, the set only
grows and never beyond `mineCount`, and reveal/mark state is untouched. -/
theorem placeMines_invariant (n : Nat) (ex : Nat × Nat) :
    ∀ (draws : List (Nat × Nat)) (b : Board),
    ex ∉ b.minePositions →
    b.WF →
    (∀ p, b.validPos p → ((b.cellAt p).mine = true ↔ p ∈ b.minePositions)) →
    (∀ d ∈ draws, d.1 < b.height ∧ d.2 < b.width) →
    (ex ∉ (b.placeMines n ex draws).minePositions ∧
     (b.placeMines n ex draws).WF ∧
     (b.placeMines n ex draws).width = b.width ∧
     (b.placeMines n ex draws).height = b.height ∧
     (∀ p, (b.placeMines n ex draws).validPos p →
       (((b.placeMines n ex draws).cellAt p).mine = true ↔
         p ∈ (b.placeMines n ex draws).minePositions)) ∧
     (∀ p, p ∈ (b.placeMines n ex draws).minePositions →
       p ∈ draws ∨ p ∈ b.minePositions) ∧
     (b.placeMines n ex draws).minePositions.card ≤
       max n b.minePositions.card ∧
     (∀ q, ((b.placeMines n ex draws).cellAt q).revealed =
         (b.cellAt q).revealed ∧
       ((b.placeMines n ex draws).cellAt q).mark = (b.cellAt q).mark)) := by
  intro draws
  induction draws with
  | nil =>
    intro b hex hWF hinv hdr
    exact ⟨hex, hWF, rfl, rfl, hinv, fun p hp => Or.inr hp,
      le_max_right _ _, fun q => ⟨rfl, rfl⟩⟩
  | cons d rest ih =>
    intro b hex hWF hinv hdr
    unfold Board.placeMines
    split
    · rename_i hcard
      split
      · rename_i hnew
        have hdv : b.validPos d := by
          have h := hdr d (List.mem_cons_self _ _)
          exact ⟨h.1, h.2⟩
        have haddWF : (b.addMine d).WF := Board.addMine_WF hWF d
        have haddex : ex ∉ (b.addMine d).minePositions := by
          rw [Board.addMine_minePositions]
          intro hc
          rcases Finset.mem_insert.mp hc with h | h
          · exact hnew.2 h.symm
          · exact hex h
        have haddinv : ∀ p, (b.addMine d).validPos p →
            (((b.addMine d).cellAt p).mine = true ↔
              p ∈ (b.addMine d).minePositions) := by
          intro p hp
          have hpv : b.validPos p := hp
          rw [Board.cellAt_addMine, Board.addMine_minePositions]
          by_cases hpd : p = d
          · subst hpd
            rw [Board.cellAt_modifyCell_self hWF hpv]
            simp
          · rw [Board.cellAt_modifyCell_ne b hpd]
            rw [hinv p hpv]
            simp [hpd]
        have hadddr : ∀ e ∈ rest, e.1 < (b.addMine d).height ∧
            e.2 < (b.addMine d).width := by
          intro e he
          exact hdr e (List.mem_cons_of_mem _ he)
        obtain ⟨i1, i2, i3, i4, i5, i6, i7, i8⟩ :=
          ih (b.addMine d) haddex haddWF haddinv hadddr
        refine ⟨i1, i2, i3, i4, i5, ?_, ?_, ?_⟩
        · intro p hp
          rcases i6 p hp with h | h
          · exact Or.inl (List.mem_cons_of_mem _ h)
          · rw [Board.addMine_minePositions] at h
            rcases Finset.mem_insert.mp h with h' | h'
            · exact Or.inl (h' ▸ List.mem_cons_self _ _)
            · exact Or.inr h'
        · have hcardadd : (b.addMine d).minePositions.card =
              b.minePositions.card + 1 := by
            rw [Board.addMine_minePositions]
            exact Finset.card_insert_of_not_mem hnew.1
          have hmaxeq : max n (b.addMine d).minePositions.card = n := by
            rw [hcardadd]
            omega
          rw [hmaxeq] at i7
          exact le_trans i7 (le_max_left _ _)
        · intro q
          have hrm : ((b.addMine d).cellAt q).revealed = (b.cellAt q).revealed ∧
              ((b.addMine d).cellAt q).mark = (b.cellAt q).mark := by
            rw [Board.cellAt_addMine]
            rcases Board.cellAt_modifyCell_cases b d q
              (fun c => { c with mine := true }) with h | h <;>
              rw [h] <;> exact ⟨rfl, rfl⟩
          exact ⟨((i8 q).1).trans hrm.1, ((i8 q).2).trans hrm.2⟩
      · obtain ⟨i1, i2, i3, i4, i5, i6, i7, i8⟩ :=
          ih b hex hWF hinv fun e he => hdr e (List.mem_cons_of_mem _ he)
        exact ⟨i1, i2, i3, i4, i5,
          fun p hp => (i6 p hp).imp (List.mem_cons_of_mem _) id, i7, i8⟩
    · exact ⟨hex, hWF, rfl, rfl, hinv, fun p hp => Or.inr hp,
        le_max_right _ _, fun q => ⟨rfl, rfl⟩⟩

theorem Board.mkBoard_WF (width height : Nat) :
    (Board.mkBoard width height).WF := by
  constructor
  · exact List.length_replicate _ _
  · intro row hrow
    rw [List.eq_of_mem_replicate hrow]
    exact List.length_replicate _ _

theorem Board.mkBoard_cellAt (width height : Nat) (p : Nat × Nat) :
    (Board.mkBoard width height).cellAt p = default := by
  unfold Board.mkBoard Board.cellAt
  simp only [List.getD_eq_getElem?_getD]
  by_cases h : p.1 < height
  · rw [List.getElem?_replicate]
    simp only [h, if_pos]
    by_cases h2 : p.2 < width
    · rw [Option.getD_some, List.getElem?_replicate]
      simp [h2]
    · rw [Option.getD_some, List.getElem?_replicate]
      simp [h2]
  · rw [List.getElem?_replicate]
    simp [h]

/-- C5: guarantees of completed mine placement.  Starting from a fresh
board, if the rejection-sampling loop reached its target (`card = n`
distinct positions — a `Finset` holds no duplicates), then the excluded
first-click cell carries no mine, exactly `n` distinct cells are mined
(the per-cell `dataset.mine` flags agree with `minePositions`), and every
mine comes from the random draw stream. -/
theorem C5_placeMines_guarantees (width height n : Nat) (ex : Nat × Nat)
    (draws : List (Nat × Nat))
    (hdraws : ∀ d ∈ draws, d.1 < height ∧ d.2 < width)
    (hdone : ((Board.mkBoard width height).placeMines n ex
      draws).minePositions.card = n) :
    ex ∉ ((Board.mkBoard width height).placeMines n ex draws).minePositions ∧
    ((Board.mkBoard width height).placeMines n ex
      draws).minePositions.card = n ∧
    (∀ p, ((Board.mkBoard width height).placeMines n ex draws).validPos p →
      ((((Board.mkBoard width height).placeMines n ex
          draws).cellAt p).mine = true ↔
        p ∈ ((Board.mkBoard width height).placeMines n ex
          draws).minePositions)) ∧
    (∀ p ∈ ((Board.mkBoard width height).placeMines n ex
        draws).minePositions, p ∈ draws) := by
  have hinv0 : ∀ p, (Board.mkBoard width height).validPos p →
      (((Board.mkBoard width height).cellAt p).mine = true ↔
        p ∈ (Board.mkBoard width height).minePositions) := by
    intro p _
    rw [Board.mkBoard_cellAt]
    constructor
    · intro h
      cases h
    · intro h
      cases h
  obtain ⟨i1, _, _, _, i5, i6, _, _⟩ :=
    placeMines_invariant n ex draws (Board.mkBoard width height)
      (by intro h; cases h) (Board.mkBoard_WF width height) hinv0
      (fun d hd => hdraws d hd)
  refine ⟨i1, hdone, i5, ?_⟩
  intro p hp
  rcases i6 p hp with h | h
  · exact h
  · cases h

/-- C5 witness: a 5 × 5 board, two mines requested, first click `(0, 0)`;
the draw stream first offers the excluded cell and a duplicate, both
skipped. -/
theorem C5_placeMines_guarantees_witness :
    ((∀ d ∈ [((0 : Nat), (0 : Nat)), (1, 1), (1, 1), (2, 2)],
        d.1 < 5 ∧ d.2 < 5) ∧
      ((Board.mkBoard 5 5).placeMines 2 (0, 0)
        [(0, 0), (1, 1), (1, 1), (2, 2)]).minePositions.card = 2) ∧
    ((0, 0) ∉ ((Board.mkBoard 5 5).placeMines 2 (0, 0)
        [(0, 0), (1, 1), (1, 1), (2, 2)]).minePositions ∧
      ((Board.mkBoard 5 5).placeMines 2 (0, 0)
        [(0, 0), (1, 1), (1, 1), (2, 2)]).minePositions.card = 2 ∧
      (∀ p, ((Board.mkBoard 5 5).placeMines 2 (0, 0)
          [(0, 0), (1, 1), (1, 1), (2, 2)]).validPos p →
        ((((Board.mkBoard 5 5).placeMines 2 (0, 0)
            [(0, 0), (1, 1), (1, 1), (2, 2)]).cellAt p).mine = true ↔
          p ∈ ((Board.mkBoard 5 5).placeMines 2 (0, 0)
            [(0, 0), (1, 1), (1, 1), (2, 2)]).minePositions)) ∧
      (∀ p ∈ ((Board.mkBoard 5 5).placeMines 2 (0, 0)
          [(0, 0), (1, 1), (1, 1), (2, 2)]).minePositions,
        p ∈ [(0, 0), (1, 1), (1, 1), (2, 2)])) :=
  ⟨⟨by decide, by decide⟩,
    C5_placeMines_guarantees 5 5 2 (0, 0) [(0, 0), (1, 1), (1, 1), (2, 2)]
      (by decide) (by decide)⟩

/-! ### C2 -/

/-- The `adjacentCellsCache` map of `GameBoard` (`src/js/board.js` line 8):
an association list from a coordinate key to the cached adjacency list. -/
abbrev AdjCache : Type := List ((Nat × Nat) × List (Nat × Nat))

/-- `getAdjacentCells` with its memoisation layer (`src/js/board.js` lines
49-52 and 64): consult the cache first, otherwise compute and store. -/
def getAdjacentCellsMemo (height width : Nat) (cache : AdjCache)
    (p : Nat × Nat) : List (Nat × Nat) × AdjCache :=
  match cache.find? fun e => decide (e.1 = p) with
  | some e => (e.2, cache)
  | Option.none =>
    (Board.adjacentList height width p,
      (p, Board.adjacentList height width p) :: cache)

/-- Cache soundness: every stored entry is the recomputation. -/
def CacheOK (height width : Nat) (cache : AdjCache) : Prop :=
  ∀ e ∈ cache, e.2 = Board.adjacentList height width e.1

/-- C2 counterexample: the claim says the adjacency list never contains
`(r, c)` itself and has size at most 8.  On a 5 × 5 grid the list at
`(0, 0)` contains `(0, 0)` (the offset loop does not skip `(0, 0)`), and
the list at the interior cell `(2, 2)` has 9 entries. -/
theorem C2_counterexample :
    (0, 0) ∈ Board.adjacentList 5 5 (0, 0) ∧
    (Board.adjacentList 5 5 (2, 2)).length = 9 := by
  constructor
  · decide
  · decide

/-- C2 (amended): for an in-range coordinate on a grid with both sides at
least 2, the adjacency resolver returns exactly the valid coordinates among
the nine offsets `(-1..1, -1..1)` *including* `(0, 0)` — a duplicate-free
list of size 4 to 9 that always contains the centre cell — and it is a pure
function of `(r, c, width, height)`: the memoised version returns the same
list and preserves cache soundness. -/
theorem C2_adjacency (height width : Nat) (p : Nat × Nat)
    (hh : 2 ≤ height) (hw : 2 ≤ width) (hp1 : p.1 < height)
    (hp2 : p.2 < width) :
    (∀ q, q ∈ Board.adjacentList height width p ↔
      (q.1 < height ∧ q.2 < width ∧ ((q.1 : Int) - p.1).natAbs ≤ 1 ∧
        ((q.2 : Int) - p.2).natAbs ≤ 1)) ∧
    (Board.adjacentList height width p).Nodup ∧
    p ∈ Board.adjacentList height width p ∧
    4 ≤ (Board.adjacentList height width p).length ∧
    (Board.adjacentList height width p).length ≤ 9 ∧
    (∀ cache, CacheOK height width cache →
      (getAdjacentCellsMemo height width cache p).1 =
        Board.adjacentList height width p ∧
      CacheOK height width (getAdjacentCellsMemo height width cache p).2) := by
  obtain ⟨r', hr'1, hr'2, hr'ne⟩ : ∃ r', r' < height ∧
      ((r' : Int) - p.1).natAbs ≤ 1 ∧ r' ≠ p.1 := by
    by_cases h : p.1 + 1 < height
    · exact ⟨p.1 + 1, h, by omega, by omega⟩
    · exact ⟨p.1 - 1, by omega, by omega, by omega⟩
  obtain ⟨c', hc'1, hc'2, hc'ne⟩ : ∃ c', c' < width ∧
      ((c' : Int) - p.2).natAbs ≤ 1 ∧ c' ≠ p.2 := by
    by_cases h : p.2 + 1 < width
    · exact ⟨p.2 + 1, h, by omega, by omega⟩
    · exact ⟨p.2 - 1, by omega, by omega, by omega⟩
  have hmemp : p ∈ Board.adjacentList height width p :=
    Board.mem_adjacentList.mpr ⟨hp1, hp2, by omega, by omega⟩
  refine ⟨fun q => Board.mem_adjacentList, Board.nodup_adjacentList _ _ _,
    hmemp, ?_, ?_, ?_⟩
  · have m1 : p ∉ ({(r', p.2), (p.1, c'), (r', c')} : Finset (Nat × Nat)) := by
      simp only [Finset.mem_insert, Finset.mem_singleton, Prod.ext_iff]
      omega
    have m2 : (r', p.2) ∉ ({(p.1, c'), (r', c')} : Finset (Nat × Nat)) := by
      simp only [Finset.mem_insert, Finset.mem_singleton, Prod.mk.injEq]
      omega
    have m3 : ((p.1, c') : Nat × Nat) ∉ ({(r', c')} : Finset (Nat × Nat)) := by
      simp only [Finset.mem_singleton, Prod.mk.injEq]
      omega
    have hcard : ({p, (r', p.2), (p.1, c'), (r', c')} :
        Finset (Nat × Nat)).card = 4 := by
      rw [Finset.card_insert_of_not_mem m1, Finset.card_insert_of_not_mem m2,
        Finset.card_insert_of_not_mem m3, Finset.card_singleton]
    have hsub : ({p, (r', p.2), (p.1, c'), (r', c')} : Finset (Nat × Nat)) ⊆
        (Board.adjacentList height width p).toFinset := by
      intro x hx
      rw [List.mem_toFinset]
      rcases Finset.mem_insert.mp hx with rfl | hx
      · exact hmemp
      rcases Finset.mem_insert.mp hx with rfl | hx
      · exact Board.mem_adjacentList.mpr ⟨hr'1, hp2, hr'2, by omega⟩
      rcases Finset.mem_insert.mp hx with rfl | hx
      · exact Board.mem_adjacentList.mpr ⟨hp1, hc'1, by omega, hc'2⟩
      rw [Finset.mem_singleton] at hx
      subst hx
      exact Board.mem_adjacentList.mpr ⟨hr'1, hc'1, hr'2, hc'2⟩
    calc 4 = ({p, (r', p.2), (p.1, c'), (r', c')} :
          Finset (Nat × Nat)).card := hcard.symm
      _ ≤ (Board.adjacentList height width p).toFinset.card :=
          Finset.card_le_card hsub
      _ ≤ (Board.adjacentList height width p).length :=
          List.toFinset_card_le _
  · unfold Board.adjacentList
    exact List.length_filterMap_le _ _
  · intro cache hok
    unfold getAdjacentCellsMemo
    cases hfind : cache.find? fun e => decide (e.1 = p) with
    | none =>
      dsimp only
      refine ⟨rfl, ?_⟩
      intro e he
      rcases List.mem_cons.mp he with rfl | he
      · rfl
      · exact hok e he
    | some e =>
      dsimp only
      have hmem := List.mem_of_find?_eq_some hfind
      have hpred := List.find?_some hfind
      simp only [decide_eq_true_eq] at hpred
      refine ⟨?_, hok⟩
      rw [hok e hmem, hpred]

theorem C2_adjacency_witness :
    ((2 : Nat) ≤ 5 ∧ (2 : Nat) ≤ 5 ∧ (0 : Nat) < 5 ∧ (0 : Nat) < 5) ∧
    ((∀ q : Nat × Nat, q ∈ Board.adjacentList 5 5 (0, 0) ↔
      (q.1 < 5 ∧ q.2 < 5 ∧ ((q.1 : Int) - ((0 : Nat) : Int)).natAbs ≤ 1 ∧
        ((q.2 : Int) - ((0 : Nat) : Int)).natAbs ≤ 1)) ∧
    (Board.adjacentList 5 5 (0, 0)).Nodup ∧
    ((0, 0) : Nat × Nat) ∈ Board.adjacentList 5 5 (0, 0) ∧
    4 ≤ (Board.adjacentList 5 5 (0, 0)).length ∧
    (Board.adjacentList 5 5 (0, 0)).length ≤ 9 ∧
    (∀ cache, CacheOK 5 5 cache →
      (getAdjacentCellsMemo 5 5 cache (0, 0)).1 =
        Board.adjacentList 5 5 (0, 0) ∧
      CacheOK 5 5 (getAdjacentCellsMemo 5 5 cache (0, 0)).2)) :=
  ⟨⟨by decide, by decide, by decide, by decide⟩,
    C2_adjacency 5 5 (0, 0) (by decide) (by decide) (by decide) (by decide)⟩

/-! ### C1 -/

namespace Minesweeper

theorem revealAdjacentCells_revealedCount (g : Game) (p : Nat × Nat) :
    (revealAdjacentCells g p).state.revealedCount =
      g.state.revealedCount := by
  unfold revealAdjacentCells
  dsimp only
  split
  · rfl
  · rw [checkWin_revealedCount]

theorem handleBoardClick_revealedCount (g : Game) (draws : List (Nat × Nat))
    (p : Nat × Nat) :
    (handleBoardClick g draws p).state.revealedCount =
      g.state.revealedCount := by
  have hcore : ∀ g2 : Game, g2.state.revealedCount = g.state.revealedCount →
      (if (g2.board.cellAt p).mark ≠ Mark.none then g2
       else if (g2.board.cellAt p).mine = true then endGame g2 false
       else
         if (g2.board.revealCell p).2 = true then
           revealAdjacentCells { g2 with board := (g2.board.revealCell p).1 } p
         else
           checkWin { g2 with
             board := (g2.board.revealCell p).1 }).state.revealedCount
        = g.state.revealedCount := by
    intro g2 hg2
    split
    · exact hg2
    · split
      · exact hg2
      · split
        · rw [revealAdjacentCells_revealedCount]
          exact hg2
        · rw [checkWin_revealedCount]
          exact hg2
  unfold handleBoardClick
  split
  · rfl
  · dsimp only
    exact hcore _ (by split <;> rfl)

theorem handleBoardRightClick_revealedCount (g : Game) (p : Nat × Nat) :
    (handleBoardRightClick g p).state.revealedCount =
      g.state.revealedCount := by
  unfold handleBoardRightClick
  split
  · rfl
  · split
    · rfl
    · rw [checkWin_revealedCount]

theorem handleDualButtonPress_revealedCount (g : Game) (p : Nat × Nat) :
    (handleDualButtonPress g p).state.revealedCount =
      g.state.revealedCount := by
  unfold handleDualButtonPress
  split
  · rfl
  · dsimp only
    split
    · rw [revealAdjacentCells_revealedCount]
    · rfl

theorem handleBoardMouseDown_revealedCount (g : Game) (p : Nat × Nat)
    (button : Nat) :
    (handleBoardMouseDown g p button).state.revealedCount =
      g.state.revealedCount := by
  unfold handleBoardMouseDown
  split
  · rfl
  · dsimp only
    by_cases hb : ((if button = 0 then true else g.state.leftMouseDown) &&
        (if button = 2 then true else g.state.rightMouseDown)) = true
    · rw [if_pos hb, handleDualButtonPress_revealedCount]
    · rw [if_neg hb]

end Minesweeper

/-- C1: counter/grid consistency is broken in the code.  `script.js` calls
`this.board.revealCell(row, col, this.state)` with the state as a third
argument, but `GameBoard.revealCell(row, col)` ignores it, and nothing else
ever increments `state.revealedCount`; the first conjunct shows every
handler leaves the counter unchanged.  The second conjunct evaluates the
failing input: a fresh 5 × 5 game with one mine drawn at `(4, 4)`; the
first click at `(0, 0)` flood-reveals all 24 safe cells, yet the counter
still reads 0 (so the win at 24 = 25 − 1 is also missed). -/
theorem C1_revealedCount_never_incremented :
    (∀ (g : Game) (draws : List (Nat × Nat)) (p : Nat × Nat) (button : Nat),
      (Minesweeper.handleBoardClick g draws p).state.revealedCount =
        g.state.revealedCount ∧
      (Minesweeper.handleBoardRightClick g p).state.revealedCount =
        g.state.revealedCount ∧
      (Minesweeper.handleBoardMouseDown g p button).state.revealedCount =
        g.state.revealedCount) ∧
    ((Minesweeper.handleBoardClick (Minesweeper.freshGame 5 5 1)
        [(4, 4)] (0, 0)).state.revealedCount = 0 ∧
      (Minesweeper.handleBoardClick (Minesweeper.freshGame 5 5 1)
        [(4, 4)] (0, 0)).board.revealedCellCount = 24 ∧
      (Minesweeper.handleBoardClick (Minesweeper.freshGame 5 5 1)
        [(4, 4)] (0, 0)).state.gameWon = false) :=
  ⟨fun g draws p button =>
    ⟨Minesweeper.handleBoardClick_revealedCount g draws p,
     Minesweeper.handleBoardRightClick_revealedCount g p,
     Minesweeper.handleBoardMouseDown_revealedCount g p button⟩,
   by decide, by decide, by decide⟩

/-! ### C6 -/

/-- `placeMines` touches only mine data: the revealed flag and the mark of
every cell are untouched, as is the game-relevant rest of the board
geometry. -/
theorem placeMines_cell_state (n : Nat) (ex : Nat × Nat) :
    ∀ (draws : List (Nat × Nat)) (b : Board) (q : Nat × Nat),
    ((b.placeMines n ex draws).cellAt q).revealed = (b.cellAt q).revealed ∧
    ((b.placeMines n ex draws).cellAt q).mark = (b.cellAt q).mark := by
  intro draws
  induction draws with
  | nil => exact fun b q => ⟨rfl, rfl⟩
  | cons d rest ih =>
    intro b q
    unfold Board.placeMines
    split
    · split
      · have hadd : ((b.addMine d).cellAt q).revealed = (b.cellAt q).revealed ∧
            ((b.addMine d).cellAt q).mark = (b.cellAt q).mark := by
          rw [Board.cellAt_addMine]
          rcases Board.cellAt_modifyCell_cases b d q
            (fun c => { c with mine := true }) with h | h <;>
            rw [h] <;> exact ⟨rfl, rfl⟩
        obtain ⟨i1, i2⟩ := ih (b.addMine d) q
        exact ⟨i1.trans hadd.1, i2.trans hadd.2⟩
      · exact ih b q
    · exact ⟨rfl, rfl⟩

/-- A fresh game on which the player flags `(1, 1)` before the first left
click. -/
def flaggedFreshGame : Game :=
  Minesweeper.handleBoardRightClick (Minesweeper.freshGame 5 5 1) (1, 1)

/-- C6 counterexample: the claim says a reveal request on a marked cell
leaves the grid state completely unchanged.  On a fresh game with `(1, 1)`
flagged, the first left click on that flagged cell is refused as a reveal —
no cell is revealed and the marked mine cannot end the game — but it still
performs the one-time mine placement: the board changes (a mine appears at
the drawn position `(4, 4)`) and `firstClick` flips. -/
theorem C6_counterexample :
    ((flaggedFreshGame.board.cellAt (1, 1)).mark ≠ Mark.none ∧
      (flaggedFreshGame.board.cellAt (1, 1)).revealed = false ∧
      flaggedFreshGame.state.firstClick = true) ∧
    Minesweeper.handleBoardClick flaggedFreshGame [(4, 4)] (1, 1) ≠
      flaggedFreshGame ∧
    ((Minesweeper.handleBoardClick flaggedFreshGame [(4, 4)]
        (1, 1)).board.cellAt (4, 4)).mine = true ∧
    (flaggedFreshGame.board.cellAt (4, 4)).mine = false ∧
    (Minesweeper.handleBoardClick flaggedFreshGame [(4, 4)]
      (1, 1)).state.gameOver = false ∧
    (Minesweeper.handleBoardClick flaggedFreshGame [(4, 4)]
      (1, 1)).board.revealedCellCount = 0 := by
  refine ⟨⟨by decide, by decide, by decide⟩, ?_, by decide, by decide,
    by decide, by decide⟩
  decide

/-- C6 (amended): a reveal request on a revealed or marked cell never
reveals anything, never increments a counter, and a marked mine never ends
the game; but the request is not a pure no-op in every state: on the first
click it still triggers the one-time mine placement (with the clicked cell
excluded) and clears `firstClick`, and on an already-revealed unmarked
(non-mine) cell it still falls through to the win check. -/
theorem C6_marked_or_revealed_inert (g : Game) (draws : List (Nat × Nat))
    (p : Nat × Nat) (hover : g.state.gameOver = false) :
    (g.state.firstClick = false → (g.board.cellAt p).mark ≠ Mark.none →
      Minesweeper.handleBoardClick g draws p = g) ∧
    (g.state.firstClick = true → (g.board.cellAt p).mark ≠ Mark.none →
      Minesweeper.handleBoardClick g draws p =
        { state := { g.state with firstClick := false }
          board := g.board.placeMines g.state.mineCount p draws }) ∧
    (g.state.firstClick = false → (g.board.cellAt p).mark = Mark.none →
      (g.board.cellAt p).revealed = true → (g.board.cellAt p).mine = false →
      Minesweeper.handleBoardClick g draws p = Minesweeper.checkWin g) := by
  refine ⟨?_, ?_, ?_⟩
  · intro hfc hmark
    unfold Minesweeper.handleBoardClick
    rw [hover]
    simp only [Bool.false_eq_true, if_false]
    rw [hfc]
    simp only [Bool.false_eq_true, if_false]
    rw [if_pos hmark]
  · intro hfc hmark
    unfold Minesweeper.handleBoardClick
    rw [hover]
    simp only [Bool.false_eq_true, if_false]
    rw [hfc]
    simp only [if_true]
    rw [if_pos]
    show ((g.board.placeMines g.state.mineCount p draws).cellAt p).mark ≠
      Mark.none
    rw [(placeMines_cell_state g.state.mineCount p draws g.board p).2]
    exact hmark
  · intro hfc hmark hrev hmine
    unfold Minesweeper.handleBoardClick
    rw [hover]
    simp only [Bool.false_eq_true, if_false]
    rw [hfc]
    simp only [Bool.false_eq_true, if_false]
    rw [if_neg (by rw [hmark]; exact fun h => h rfl)]
    rw [hmine]
    simp only [Bool.false_eq_true, if_false]
    have hrefused : g.board.revealCell p = (g.board, false) :=
      Board.revealCell_refused (Or.inr (Or.inl hrev))
    rw [hrefused]
    simp only [Bool.false_eq_true, if_false]

/-- Mid-game position with a question mark on `(1, 1)`, for the C6
witness. -/
def gMarkedC6 : Game :=
  { state := { GameState.new 5 5 1 with firstClick := false }
    board := ((Board.mkBoard 5 5).addMine (4, 4)).modifyCell (1, 1)
      fun c => { c with mark := Mark.question } }

/-- Mid-game position with `(0, 0)` already revealed, for the C6
witness. -/
def gRevealedC6 : Game :=
  { state := { GameState.new 5 5 1 with firstClick := false }
    board := ((Board.mkBoard 5 5).addMine (4, 4)).modifyCell (0, 0)
      fun c => { c with revealed := true } }

theorem C6_marked_or_revealed_inert_witness :
    (gMarkedC6.state.gameOver = false ∧ gMarkedC6.state.firstClick = false ∧
      (gMarkedC6.board.cellAt (1, 1)).mark ≠ Mark.none ∧
      Minesweeper.handleBoardClick gMarkedC6 [] (1, 1) = gMarkedC6) ∧
    (flaggedFreshGame.state.gameOver = false ∧
      flaggedFreshGame.state.firstClick = true ∧
      (flaggedFreshGame.board.cellAt (1, 1)).mark ≠ Mark.none ∧
      Minesweeper.handleBoardClick flaggedFreshGame [(4, 4)] (1, 1) =
        { state := { flaggedFreshGame.state with firstClick := false }
          board := flaggedFreshGame.board.placeMines
            flaggedFreshGame.state.mineCount (1, 1) [(4, 4)] }) ∧
    (gRevealedC6.state.gameOver = false ∧
      gRevealedC6.state.firstClick = false ∧
      (gRevealedC6.board.cellAt (0, 0)).mark = Mark.none ∧
      (gRevealedC6.board.cellAt (0, 0)).revealed = true ∧
      (gRevealedC6.board.cellAt (0, 0)).mine = false ∧
      Minesweeper.handleBoardClick gRevealedC6 [] (0, 0) =
        Minesweeper.checkWin gRevealedC6) :=
  ⟨⟨rfl, rfl, by decide,
    (C6_marked_or_revealed_inert gMarkedC6 [] (1, 1) rfl).1 rfl (by decide)⟩,
   ⟨by decide, by decide, by decide,
    (C6_marked_or_revealed_inert flaggedFreshGame [(4, 4)] (1, 1)
      (by decide)).2.1 (by decide) (by decide)⟩,
   ⟨rfl, rfl, by decide, by decide, by decide,
    (C6_marked_or_revealed_inert gRevealedC6 [] (0, 0) rfl).2.2 rfl
      (by decide) (by decide) (by decide)⟩⟩

/-! ### C3 -/

/-- Modelled from the spec: the region the claim says a flood reveals —
"the maximal connected region of zero-adjacency cells plus their bordering
numbered cells, never crossing a flagged or mined cell".  A cell belongs
when it is adjacent to the start, or adjacent to a region cell of zero
adjacent-mine count, where only flags and mines block ("never crossing a
flagged or mined cell" — question marks and already-revealed cells do not
block in the claim's wording). -/
inductive SpecFloodRegion (b : Board) (root : Nat × Nat) :
    Nat × Nat → Prop where
  | base {q : Nat × Nat} : q ∈ b.getAdjacentCells root →
      (b.cellAt q).mark ≠ Mark.flag → (b.cellAt q).mine = false →
      SpecFloodRegion b root q
  | step {q x : Nat × Nat} : SpecFloodRegion b root q →
      b.countAdjacentMines q = 0 → x ∈ b.getAdjacentCells q →
      (b.cellAt x).mark ≠ Mark.flag → (b.cellAt x).mine = false →
      SpecFloodRegion b root x

/-- Counterexample board for C3: 5 × 5, one mine at `(4, 4)`, a wall of
question marks in column 2 except at `(2, 2)`, which is already revealed;
the flood starts from the revealed zero cell `(0, 0)`.  Such a state arises
by marking, revealing `(2, 2)` while its neighbours were marked, and then
unmarking everything except the four question cells. -/
def bC3 : Board :=
  ((((((((Board.mkBoard 5 5).addMine (4, 4)).modifyCell (0, 2)
    (fun c => { c with mark := Mark.question })).modifyCell (1, 2)
    (fun c => { c with mark := Mark.question })).modifyCell (3, 2)
    (fun c => { c with mark := Mark.question })).modifyCell (4, 2)
    (fun c => { c with mark := Mark.question })).modifyCell (2, 2)
    (fun c => { c with revealed := true })).modifyCell (0, 0)
    (fun c => { c with revealed := true }))

/-- C3 counterexample: on `bC3` the flood from the zero-adjacency cell
`(0, 0)` hits no mine, but leaves `(0, 3)` and `(2, 3)` unrevealed even
though both lie in the claim's region (no flag and no mine blocks the
paths `(0,0)-(0,1)-(0,2)-(0,3)` and `(0,0)-(1,1)-(2,2)-(2,3)`; the board
carries no flag at all): a question-marked zero cell and an
already-revealed zero cell both stop the code's expansion, contradicting
"reveals exactly the maximal connected region … never crossing a flagged
or mined cell". -/
theorem C3_counterexample :
    (bC3.countAdjacentMines (0, 0) = 0 ∧ (bC3.cellAt (0, 0)).revealed = true ∧
      (∀ q ∈ bC3.allPositions, (bC3.cellAt q).mark ≠ Mark.flag)) ∧
    SpecFloodRegion bC3 (0, 0) (0, 3) ∧
    SpecFloodRegion bC3 (0, 0) (2, 3) ∧
    ((Board.floodLoopF bC3.floodFuel bC3 [(0, 0)]).1.cellAt
      (0, 3)).revealed = false ∧
    ((Board.floodLoopF bC3.floodFuel bC3 [(0, 0)]).1.cellAt
      (2, 3)).revealed = false ∧
    (Board.floodLoopF bC3.floodFuel bC3 [(0, 0)]).2 = false := by
  have h01 : SpecFloodRegion bC3 (0, 0) (0, 1) :=
    SpecFloodRegion.base (by decide) (by decide) (by decide)
  have h02 : SpecFloodRegion bC3 (0, 0) (0, 2) :=
    SpecFloodRegion.step h01 (by decide) (by decide) (by decide) (by decide)
  have h03 : SpecFloodRegion bC3 (0, 0) (0, 3) :=
    SpecFloodRegion.step h02 (by decide) (by decide) (by decide) (by decide)
  have h11 : SpecFloodRegion bC3 (0, 0) (1, 1) :=
    SpecFloodRegion.base (by decide) (by decide) (by decide)
  have h22 : SpecFloodRegion bC3 (0, 0) (2, 2) :=
    SpecFloodRegion.step h11 (by decide) (by decide) (by decide) (by decide)
  have h23 : SpecFloodRegion bC3 (0, 0) (2, 3) :=
    SpecFloodRegion.step h22 (by decide) (by decide) (by decide) (by decide)
  exact ⟨⟨by decide, by decide, by decide⟩, h03, h23, by decide, by decide,
    by decide⟩

/-- C3 (amended): flood reveal started from a zero-adjacency cell
terminates — any fuel beyond the game's `2·area + 1` bound changes nothing
— and reveals exactly the cells reachable from the start through
unrevealed, unmarked, unmined zero-adjacency cells (the `Reach` relation:
the reachable zero region together with its bordering eligible cells).
Every newly revealed cell is unmarked (neither flag nor question), unmined
and in range; mines and marks are untouched; and the expansion itself
never hits a mine, so the game-level cascade always ends in the win check,
never in a loss. -/
theorem C3_flood_exact (b : Board) (start : Nat × Nat) (hWF : b.WF)
    (hc : b.countAdjacentMines start = 0) :
    (∀ extra, Board.floodLoopF (b.floodFuel + extra) b [start] =
      Board.floodLoopF b.floodFuel b [start]) ∧
    (Board.floodLoopF b.floodFuel b [start]).2 = false ∧
    (∀ g : Game, g.board = b → Minesweeper.revealAdjacentCells g start =
      Minesweeper.checkWin { g with
        board := (Board.floodLoopF b.floodFuel b [start]).1 }) ∧
    (∀ x, ((Board.floodLoopF b.floodFuel b [start]).1.cellAt x).revealed
        = true ↔
      ((b.cellAt x).revealed = true ∨ Board.Reach b start x)) ∧
    (∀ x, (b.cellAt x).revealed = false →
      ((Board.floodLoopF b.floodFuel b [start]).1.cellAt x).revealed = true →
      ((b.cellAt x).mark = Mark.none ∧ (b.cellAt x).mine = false ∧
        b.validPos x)) ∧
    (∀ x, ((Board.floodLoopF b.floodFuel b [start]).1.cellAt x).mine
        = (b.cellAt x).mine ∧
      ((Board.floodLoopF b.floodFuel b [start]).1.cellAt x).mark
        = (b.cellAt x).mark) := by
  obtain ⟨hhit, hiff⟩ := Board.floodFrom_exact b start hWF hc
  have hmeas : 2 * b.unrevealedCount + ([start] : List (Nat × Nat)).length ≤
      b.floodFuel := by
    have h1 := Board.unrevealedCount_le b
    have h2 : b.height * b.width = b.width * b.height := Nat.mul_comm _ _
    unfold Board.floodFuel
    simp only [List.length_cons, List.length_nil]
    omega
  obtain ⟨_, _, _, pmine, pmark, _, _, _⟩ :=
    Board.floodLoopF_preserves b.floodFuel b [start]
  refine ⟨?_, hhit, ?_, hiff, ?_, fun x => ⟨pmine x, pmark x⟩⟩
  · intro extra
    apply Board.floodLoopF_fuel_irrel _ _ _ _ hWF
    · omega
    · exact hmeas
  · intro g hg
    subst hg
    exact Minesweeper.revealAdjacentCells_no_hit g start hWF hc
  · intro x hx0 hx1
    have := (hiff x).mp hx1
    rcases this with h | h
    · rw [hx0] at h
      cases h
    · have he := h.elig_of
      exact ⟨he.2.2.1, he.2.2.2, he.1⟩

/-- Board for the C3 witness: 5 × 5, one mine at `(4, 4)`, `(0, 0)` already
revealed (as the click handler leaves it before flooding). -/
def bC3W : Board :=
  ((Board.mkBoard 5 5).addMine (4, 4)).modifyCell (0, 0)
    fun c => { c with revealed := true }

theorem C3_flood_exact_witness :
    (bC3W.WF ∧ bC3W.countAdjacentMines (0, 0) = 0) ∧
    ((∀ extra, Board.floodLoopF (bC3W.floodFuel + extra) bC3W [(0, 0)] =
      Board.floodLoopF bC3W.floodFuel bC3W [(0, 0)]) ∧
    (Board.floodLoopF bC3W.floodFuel bC3W [(0, 0)]).2 = false ∧
    (∀ g : Game, g.board = bC3W →
      Minesweeper.revealAdjacentCells g (0, 0) =
      Minesweeper.checkWin { g with
        board := (Board.floodLoopF bC3W.floodFuel bC3W [(0, 0)]).1 }) ∧
    (∀ x, ((Board.floodLoopF bC3W.floodFuel bC3W [(0, 0)]).1.cellAt
        x).revealed = true ↔
      ((bC3W.cellAt x).revealed = true ∨ Board.Reach bC3W (0, 0) x)) ∧
    (∀ x, (bC3W.cellAt x).revealed = false →
      ((Board.floodLoopF bC3W.floodFuel bC3W [(0, 0)]).1.cellAt
        x).revealed = true →
      ((bC3W.cellAt x).mark = Mark.none ∧ (bC3W.cellAt x).mine = false ∧
        bC3W.validPos x)) ∧
    (∀ x, ((Board.floodLoopF bC3W.floodFuel bC3W [(0, 0)]).1.cellAt
        x).mine = (bC3W.cellAt x).mine ∧
      ((Board.floodLoopF bC3W.floodFuel bC3W [(0, 0)]).1.cellAt
        x).mark = (bC3W.cellAt x).mark)) :=
  ⟨⟨by decide, by decide⟩,
    C3_flood_exact bC3W (0, 0) (by decide) (by decide)⟩

/-! ### C8 -/

theorem Minesweeper.checkWin_gameOver (g : Game) :
    (Minesweeper.checkWin g).state.gameOver = true →
      g.state.gameOver = true ∨
        (Minesweeper.checkWin g).state.gameWon = true := by
  unfold Minesweeper.checkWin Minesweeper.endGame
  split
  · exact fun h => Or.inl h
  · split
    · intro _
      right
      rfl
    · exact fun h => Or.inl h

/-- Chord position for the C8 counterexample: mine at `(0, 0)` correctly
flagged, the numbered cell `(1, 1)` (count 1) revealed, and a question mark
on the safe neighbour `(2, 2)`. -/
def gC8 : Game :=
  { state := { GameState.new 5 5 1 with firstClick := false }
    board := ((((Board.mkBoard 5 5).addMine (0, 0)).modifyCell (1, 1)
      (fun c => { c with revealed := true })).modifyCell (0, 0)
      (fun c => { c with mark := Mark.flag })).modifyCell (2, 2)
      fun c => { c with mark := Mark.question } }

/-- C8 counterexample: the claim says the chord reveals all unflagged,
unrevealed neighbours *including Question-marked ones*.  On `gC8` the
flag count (1) matches the displayed number of `(1, 1)`, so the chord
fires, but the question-marked safe neighbour `(2, 2)` is passed to
`revealCell`, which refuses any marked cell: it stays unrevealed. -/
theorem C8_counterexample :
    (Minesweeper.isRevealedNumber gC8.board (1, 1) = true ∧
      ((gC8.board.getAdjacentCells (1, 1)).filter fun q =>
        (gC8.board.cellAt q).mark = Mark.flag).length =
        gC8.board.countAdjacentMines (1, 1) ∧
      (2, 2) ∈ gC8.board.getAdjacentCells (1, 1) ∧
      (gC8.board.cellAt (2, 2)).mark = Mark.question ∧
      (gC8.board.cellAt (2, 2)).revealed = false ∧
      (gC8.board.cellAt (2, 2)).mine = false) ∧
    ((Minesweeper.handleDualButtonPress gC8 (1, 1)).board.cellAt
      (2, 2)).revealed = false ∧
    (Minesweeper.handleDualButtonPress gC8 (1, 1)).state.gameOver = false := by
  exact ⟨⟨by decide, by decide, by decide, by decide, by decide, by decide⟩,
    by decide, by decide⟩

/-- C8 (amended): chord reveal on a revealed numbered cell.  If the flagged
count among the scanned cells differs from the displayed number, the
operation is highlight-only: the game is unchanged.  If it matches and no
unflagged, unrevealed neighbour is a mine, every *unmarked* unrevealed
neighbour is revealed (question-marked cells are passed to the reveal
engine but refused, so they stay unrevealed), marks and mines are
untouched, and the operation can only end the game as a win.  If it
matches but some unflagged, unrevealed neighbour is a mine (wrong flags, or
a question mark on a mine), the chord ends the game as a loss. -/
theorem C8_chord (g : Game) (p : Nat × Nat) (hWF : g.board.WF) :
    (¬ Minesweeper.isRevealedNumber g.board p = true →
      Minesweeper.handleDualButtonPress g p = g) ∧
    (Minesweeper.isRevealedNumber g.board p = true →
      ((g.board.getAdjacentCells p).filter fun q =>
        (g.board.cellAt q).mark = Mark.flag).length ≠
        g.board.countAdjacentMines p →
      Minesweeper.handleDualButtonPress g p = g) ∧
    (Minesweeper.isRevealedNumber g.board p = true →
      ((g.board.getAdjacentCells p).filter fun q =>
        (g.board.cellAt q).mark = Mark.flag).length =
        g.board.countAdjacentMines p →
      (∀ q ∈ g.board.getAdjacentCells p, (g.board.cellAt q).mine = true →
        (g.board.cellAt q).revealed = true ∨
          (g.board.cellAt q).mark = Mark.flag) →
      g.state.gameOver = false →
      ((∀ q ∈ g.board.getAdjacentCells p,
          (g.board.cellAt q).mark = Mark.none →
          (g.board.cellAt q).mine = false →
          ((Minesweeper.handleDualButtonPress g p).board.cellAt
            q).revealed = true) ∧
        (∀ q, (g.board.cellAt q).mark ≠ Mark.none →
          (g.board.cellAt q).revealed = false →
          ((Minesweeper.handleDualButtonPress g p).board.cellAt
            q).revealed = false) ∧
        (∀ q, ((Minesweeper.handleDualButtonPress g p).board.cellAt q).mark
            = (g.board.cellAt q).mark ∧
          ((Minesweeper.handleDualButtonPress g p).board.cellAt q).mine
            = (g.board.cellAt q).mine) ∧
        ((Minesweeper.handleDualButtonPress g p).state.gameOver = true →
          (Minesweeper.handleDualButtonPress g p).state.gameWon = true))) ∧
    (Minesweeper.isRevealedNumber g.board p = true →
      ((g.board.getAdjacentCells p).filter fun q =>
        (g.board.cellAt q).mark = Mark.flag).length =
        g.board.countAdjacentMines p →
      (∃ q ∈ g.board.getAdjacentCells p,
        (g.board.cellAt q).revealed = false ∧
        (g.board.cellAt q).mark ≠ Mark.flag ∧
        (g.board.cellAt q).mine = true) →
      ((Minesweeper.handleDualButtonPress g p).state.gameOver = true ∧
        (Minesweeper.handleDualButtonPress g p).state.gameWon = false)) := by
  refine ⟨?_, ?_, ?_, ?_⟩
  · intro hnum
    unfold Minesweeper.handleDualButtonPress
    rw [if_pos hnum]
  · intro hnum hne
    unfold Minesweeper.handleDualButtonPress
    rw [if_neg (fun hcon => hcon hnum)]
    dsimp only
    rw [if_neg hne]
  · intro hnum hmatch hnomine hover
    have hchord : Minesweeper.handleDualButtonPress g p =
        Minesweeper.revealAdjacentCells g p := by
      unfold Minesweeper.handleDualButtonPress
      rw [if_neg (fun hcon => hcon hnum)]
      dsimp only
      rw [if_pos hmatch]
    obtain ⟨hhit, hrev, hpush⟩ := Board.revealNeighbors_exact hWF hnomine
    obtain ⟨mw, mh, mm, mmine, mmark, mmono, mnew, mwf⟩ :=
      Board.revealNeighbors_meta g.board (g.board.getAdjacentCells p)
    have hflood2 : Board.floodLoopF g.board.floodFuel g.board [p] =
        Board.floodLoopF (2 * (g.board.width * g.board.height))
          (g.board.revealNeighbors (g.board.getAdjacentCells p)).board
          (g.board.revealNeighbors (g.board.getAdjacentCells p)).pushes := by
      show Board.floodLoopF (2 * (g.board.width * g.board.height) + 1)
        g.board [p] = _
      simp only [Board.floodLoopF, hhit, Bool.false_eq_true, if_false,
        List.nil_append]
    have hzero : ∀ q ∈ (g.board.revealNeighbors
        (g.board.getAdjacentCells p)).pushes,
        (g.board.revealNeighbors
          (g.board.getAdjacentCells p)).board.countAdjacentMines q = 0 := by
      intro q hq
      rw [Board.countAdjacentMines_congr mh mw mmine]
      exact ((hpush q).mp hq).2.2
    have hsafe := Board.floodLoopF_safe
      (2 * (g.board.width * g.board.height))
      (g.board.revealNeighbors (g.board.getAdjacentCells p)).board
      (g.board.revealNeighbors (g.board.getAdjacentCells p)).pushes
      (mwf hWF) hzero
    obtain ⟨pw, ph, pm, pmine, pmark, pmono, pnew, pwf⟩ :=
      Board.floodLoopF_preserves (2 * (g.board.width * g.board.height))
        (g.board.revealNeighbors (g.board.getAdjacentCells p)).board
        (g.board.revealNeighbors (g.board.getAdjacentCells p)).pushes
    have hresult : Minesweeper.revealAdjacentCells g p =
        Minesweeper.checkWin { g with board :=
          (Board.floodLoopF (2 * (g.board.width * g.board.height))
            (g.board.revealNeighbors (g.board.getAdjacentCells p)).board
            (g.board.revealNeighbors
              (g.board.getAdjacentCells p)).pushes).1 } := by
      unfold Minesweeper.revealAdjacentCells
      rw [hflood2]
      dsimp only
      rw [hsafe]
      simp only [Bool.false_eq_true, if_false]
    rw [hchord, hresult]
    refine ⟨?_, ?_, ?_, ?_⟩
    · intro q hq hqmark hqmine
      rw [Minesweeper.checkWin_board]
      dsimp only
      by_cases hqrev : (g.board.cellAt q).revealed = true
      · exact pmono q (mmono q hqrev)
      · simp only [Bool.not_eq_true] at hqrev
        apply pmono
        apply (hrev q).mpr
        right
        exact ⟨hq, Board.validPos_of_mem_getAdjacentCells hq, hqrev,
          hqmark, hqmine⟩
    · intro q hqmark hqrev
      rw [Minesweeper.checkWin_board]
      dsimp only
      by_contra hcon
      simp only [Bool.not_eq_false] at hcon
      rcases pnew q hcon with h' | he
      · rcases (hrev q).mp h' with h'' | ⟨_, he2⟩
        · rw [hqrev] at h''
          cases h''
        · exact hqmark he2.2.2.1
      · have hmq := he.2.2.1
        rw [mmark q] at hmq
        exact hqmark hmq
    · intro q
      rw [Minesweeper.checkWin_board]
      dsimp only
      constructor
      · rw [pmark q, mmark q]
      · rw [pmine q, mmine q]
    · intro hgo
      rcases Minesweeper.checkWin_gameOver _ hgo with h' | h'
      · have hcontra : g.state.gameOver = true := h'
        rw [hover] at hcontra
        cases hcontra
      · exact h'
  · intro hnum hmatch hex
    have hchord : Minesweeper.handleDualButtonPress g p =
        Minesweeper.revealAdjacentCells g p := by
      unfold Minesweeper.handleDualButtonPress
      rw [if_neg (fun hcon => hcon hnum)]
      dsimp only
      rw [if_pos hmatch]
    have hhit := Board.revealNeighbors_hit_of_mine hex
    have hflood : Board.floodLoopF g.board.floodFuel g.board [p] =
        ((g.board.revealNeighbors (g.board.getAdjacentCells p)).board,
          true) := by
      show Board.floodLoopF (2 * (g.board.width * g.board.height) + 1)
        g.board [p] = _
      simp only [Board.floodLoopF, hhit, if_true]
    rw [hchord]
    unfold Minesweeper.revealAdjacentCells
    rw [hflood]
    exact ⟨rfl, rfl⟩

/-- Like `gC8` but with no flag anywhere: flag count 0 ≠ 1. -/
def gC8b : Game :=
  { state := { GameState.new 5 5 1 with firstClick := false }
    board := ((Board.mkBoard 5 5).addMine (0, 0)).modifyCell (1, 1)
      fun c => { c with revealed := true } }

/-- Like `gC8b` but with the flag on the wrong cell `(2, 2)`: the count
matches yet the unflagged mine `(0, 0)` is scanned. -/
def gC8c : Game :=
  { state := { GameState.new 5 5 1 with firstClick := false }
    board := (((Board.mkBoard 5 5).addMine (0, 0)).modifyCell (1, 1)
      (fun c => { c with revealed := true })).modifyCell (2, 2)
      fun c => { c with mark := Mark.flag } }

theorem C8_chord_witness :
    (gC8.board.WF ∧
      ¬ Minesweeper.isRevealedNumber gC8.board (3, 3) = true ∧
      Minesweeper.handleDualButtonPress gC8 (3, 3) = gC8) ∧
    (gC8b.board.WF ∧
      Minesweeper.isRevealedNumber gC8b.board (1, 1) = true ∧
      ((gC8b.board.getAdjacentCells (1, 1)).filter fun q =>
        (gC8b.board.cellAt q).mark = Mark.flag).length ≠
        gC8b.board.countAdjacentMines (1, 1) ∧
      Minesweeper.handleDualButtonPress gC8b (1, 1) = gC8b) ∧
    ((∀ q ∈ gC8.board.getAdjacentCells (1, 1),
        (gC8.board.cellAt q).mine = true →
        (gC8.board.cellAt q).revealed = true ∨
          (gC8.board.cellAt q).mark = Mark.flag) ∧
      gC8.state.gameOver = false ∧
      (∀ q ∈ gC8.board.getAdjacentCells (1, 1),
        (gC8.board.cellAt q).mark = Mark.none →
        (gC8.board.cellAt q).mine = false →
        ((Minesweeper.handleDualButtonPress gC8 (1, 1)).board.cellAt
          q).revealed = true) ∧
      (∀ q, (gC8.board.cellAt q).mark ≠ Mark.none →
        (gC8.board.cellAt q).revealed = false →
        ((Minesweeper.handleDualButtonPress gC8 (1, 1)).board.cellAt
          q).revealed = false) ∧
      ((Minesweeper.handleDualButtonPress gC8 (1, 1)).state.gameOver = true →
        (Minesweeper.handleDualButtonPress gC8 (1, 1)).state.gameWon
          = true)) ∧
    (gC8c.board.WF ∧
      Minesweeper.isRevealedNumber gC8c.board (1, 1) = true ∧
      ((gC8c.board.getAdjacentCells (1, 1)).filter fun q =>
        (gC8c.board.cellAt q).mark = Mark.flag).length =
        gC8c.board.countAdjacentMines (1, 1) ∧
      (Minesweeper.handleDualButtonPress gC8c (1, 1)).state.gameOver
        = true ∧
      (Minesweeper.handleDualButtonPress gC8c (1, 1)).state.gameWon
        = false) :=
  ⟨⟨by decide, by decide,
    (C8_chord gC8 (3, 3) (by decide)).1 (by decide)⟩,
   ⟨by decide, by decide, by decide,
    (C8_chord gC8b (1, 1) (by decide)).2.1 (by decide) (by decide)⟩,
   ⟨by decide, by decide,
    ((C8_chord gC8 (1, 1) (by decide)).2.2.1 (by decide) (by decide)
      (by decide) (by decide)).1,
    ((C8_chord gC8 (1, 1) (by decide)).2.2.1 (by decide) (by decide)
      (by decide) (by decide)).2.1,
    ((C8_chord gC8 (1, 1) (by decide)).2.2.1 (by decide) (by decide)
      (by decide) (by decide)).2.2.2⟩,
   ⟨by decide, by decide, by decide,
    ((C8_chord gC8c (1, 1) (by decide)).2.2.2 (by decide) (by decide)
      ⟨(0, 0), by decide, by decide, by decide, by decide⟩).1,
    ((C8_chord gC8c (1, 1) (by decide)).2.2.2 (by decide) (by decide)
      ⟨(0, 0), by decide, by decide, by decide, by decide⟩).2⟩⟩

/-! ### C10 -/

/-- Modelled from the spec: the number a revealed cell should display — the
count of mines among the cell's up-to-8 *true* neighbours, excluding the
cell itself. -/
def specNeighborMineCount (b : Board) (p : Nat × Nat) : Nat :=
  ((b.getAdjacentCells p).filter fun q =>
    decide (q ≠ p) && (b.cellAt q).mine).length

/-- All revealed cells are mine-free. -/
def Board.MineSafe (b : Board) : Prop :=
  ∀ x, (b.cellAt x).revealed = true → (b.cellAt x).mine = false

theorem Board.MineSafe_revealCell {b : Board} (h : b.MineSafe)
    {p : Nat × Nat} (hp : (b.cellAt p).mine = false) :
    (b.revealCell p).1.MineSafe := by
  intro q hq
  rw [Board.revealCell_mine]
  by_cases h0 : (b.cellAt q).revealed = true
  · exact h q h0
  · simp only [Bool.not_eq_true] at h0
    obtain ⟨hqp, _, _⟩ := Board.revealCell_new_reveal hq h0
    rw [hqp]
    exact hp

theorem Board.MineSafe_floodLoopF {b : Board} (h : b.MineSafe)
    (fuel : Nat) (Q : List (Nat × Nat)) :
    (Board.floodLoopF fuel b Q).1.MineSafe := by
  obtain ⟨_, _, _, pmine, _, _, pnew, _⟩ := Board.floodLoopF_preserves fuel b Q
  intro x hx
  rw [pmine x]
  rcases pnew x hx with h' | he
  · exact h x h'
  · exact he.2.2.2

/-- The invariant behind the displayed numbers: before the first click
nothing is revealed, and every revealed cell is mine-free. -/
def RevealedSafe (g : Game) : Prop :=
  (g.state.firstClick = true → ∀ p, (g.board.cellAt p).revealed = false) ∧
  g.board.MineSafe

namespace Minesweeper

theorem checkWin_firstClick (g : Game) :
    (checkWin g).state.firstClick = g.state.firstClick := by
  unfold checkWin endGame
  split
  · rfl
  · split <;> rfl

theorem revealAdjacentCells_firstClick (g : Game) (p : Nat × Nat) :
    (revealAdjacentCells g p).state.firstClick = g.state.firstClick := by
  unfold revealAdjacentCells
  dsimp only
  split
  · rfl
  · rw [checkWin_firstClick]

theorem revealAdjacentCells_board (g : Game) (p : Nat × Nat) :
    (revealAdjacentCells g p).board =
      (Board.floodLoopF g.board.floodFuel g.board [p]).1 := by
  unfold revealAdjacentCells
  dsimp only
  split
  · rfl
  · rw [checkWin_board]

theorem RevealedSafe_clickCore (G : Game) (p : Nat × Nat)
    (hfc : G.state.firstClick = false) (hms : G.board.MineSafe) :
    RevealedSafe (if (G.board.cellAt p).mark ≠ Mark.none then G
      else if (G.board.cellAt p).mine = true then endGame G false
      else if (G.board.revealCell p).2 = true then
        revealAdjacentCells { G with board := (G.board.revealCell p).1 } p
      else checkWin { G with board := (G.board.revealCell p).1 }) := by
  split
  · exact ⟨fun h => absurd (hfc ▸ h) (by simp), hms⟩
  · split
    · exact ⟨fun h => absurd (hfc ▸ h) (by simp), hms⟩
    · rename_i hmark hmine
      simp only [Bool.not_eq_true] at hmine
      have hms2 : (G.board.revealCell p).1.MineSafe :=
        Board.MineSafe_revealCell hms hmine
      split
      · constructor
        · intro h
          rw [revealAdjacentCells_firstClick] at h
          exact absurd (hfc ▸ h) (by simp)
        · rw [revealAdjacentCells_board]
          exact Board.MineSafe_floodLoopF hms2 _ _
      · constructor
        · intro h
          rw [checkWin_firstClick] at h
          exact absurd (hfc ▸ h) (by simp)
        · rw [checkWin_board]
          exact hms2

theorem RevealedSafe_handleBoardClick (g : Game)
    (draws : List (Nat × Nat)) (p : Nat × Nat) (h : RevealedSafe g) :
    RevealedSafe (handleBoardClick g draws p) := by
  unfold handleBoardClick
  split
  · exact h
  · dsimp only
    by_cases hfc : g.state.firstClick = true
    · rw [hfc]
      simp only [if_true]
      refine RevealedSafe_clickCore
        { state := { g.state with firstClick := false }
          board := g.board.placeMines g.state.mineCount p draws } p rfl ?_
      intro x hx
      rw [(placeMines_cell_state g.state.mineCount p draws g.board x).1]
        at hx
      rw [h.1 hfc x] at hx
      cases hx
    · simp only [Bool.not_eq_true] at hfc
      rw [hfc]
      simp only [Bool.false_eq_true, if_false]
      exact RevealedSafe_clickCore g p hfc h.2

theorem RevealedSafe_handleBoardRightClick (g : Game) (p : Nat × Nat)
    (h : RevealedSafe g) : RevealedSafe (handleBoardRightClick g p) := by
  unfold handleBoardRightClick
  split
  · exact h
  · split
    · exact h
    · dsimp only
      have hboard : ∀ x, ((g.board.modifyCell p fun c =>
          { c with mark := match (g.board.cellAt p).mark with
            | Mark.none => Mark.flag
            | Mark.flag => Mark.question
            | Mark.question => Mark.none }).cellAt x).revealed
            = (g.board.cellAt x).revealed ∧
          ((g.board.modifyCell p fun c =>
          { c with mark := match (g.board.cellAt p).mark with
            | Mark.none => Mark.flag
            | Mark.flag => Mark.question
            | Mark.question => Mark.none }).cellAt x).mine
            = (g.board.cellAt x).mine := by
        intro x
        rcases Board.cellAt_modifyCell_cases g.board p x _ with h' | h' <;>
          rw [h'] <;> exact ⟨rfl, rfl⟩
      constructor
      · intro hf
        rw [checkWin_firstClick] at hf
        intro x
        rw [checkWin_board]
        dsimp only
        rw [(hboard x).1]
        exact h.1 hf x
      · intro x hx
        rw [checkWin_board] at hx ⊢
        dsimp only at hx ⊢
        rw [(hboard x).2]
        rw [(hboard x).1] at hx
        exact h.2 x hx

theorem RevealedSafe_handleDualButtonPress (g : Game) (p : Nat × Nat)
    (h : RevealedSafe g) : RevealedSafe (handleDualButtonPress g p) := by
  unfold handleDualButtonPress
  split
  · exact h
  · rename_i hnum
    simp only [not_not] at hnum
    dsimp only
    have hrevp : (g.board.cellAt p).revealed = true := by
      unfold isRevealedNumber at hnum
      exact (Bool.and_eq_true .. ▸ hnum).1
    have hfc : g.state.firstClick = false := by
      by_contra hcon
      simp only [Bool.not_eq_false] at hcon
      rw [h.1 hcon p] at hrevp
      cases hrevp
    split
    · constructor
      · intro hf
        rw [revealAdjacentCells_firstClick, hfc] at hf
        cases hf
      · rw [revealAdjacentCells_board]
        exact Board.MineSafe_floodLoopF h.2 _ _
    · exact h

theorem RevealedSafe_handleBoardMouseDown (g : Game) (p : Nat × Nat)
    (button : Nat) (h : RevealedSafe g) :
    RevealedSafe (handleBoardMouseDown g p button) := by
  unfold handleBoardMouseDown
  split
  · exact h
  · dsimp only
    by_cases hb : ((if button = 0 then true else g.state.leftMouseDown) &&
        (if button = 2 then true else g.state.rightMouseDown)) = true
    · rw [if_pos hb]
      apply RevealedSafe_handleDualButtonPress
      exact ⟨h.1, h.2⟩
    · rw [if_neg hb]
      exact ⟨h.1, h.2⟩

end Minesweeper

/-- C10: in every reachable state the number a revealed cell displays
(`countAdjacentMines`, computed over the adjacency list that includes the
cell itself) equals the number of mines among its true neighbours.  The
self-inclusion never inflates the count because the count is only relevant
on non-mine cells, and an invariant of all three input handlers (starting
from a fresh game) is that every revealed cell is mine-free: mines end the
game before `revealCell` runs, and flood expansion checks the mine flag
before revealing. -/
theorem C10_displayed_count :
    (∀ (b : Board) (p : Nat × Nat), (b.cellAt p).mine = false →
      b.countAdjacentMines p = specNeighborMineCount b p) ∧
    (∀ width height mines : Nat,
      RevealedSafe (Minesweeper.freshGame width height mines)) ∧
    (∀ (g : Game) (draws : List (Nat × Nat)) (p : Nat × Nat) (button : Nat),
      RevealedSafe g →
      (RevealedSafe (Minesweeper.handleBoardClick g draws p) ∧
       RevealedSafe (Minesweeper.handleBoardRightClick g p) ∧
       RevealedSafe (Minesweeper.handleBoardMouseDown g p button))) ∧
    (∀ g : Game, RevealedSafe g →
      ∀ p, (g.board.cellAt p).revealed = true →
      g.board.countAdjacentMines p = specNeighborMineCount g.board p) := by
  have hcount : ∀ (b : Board) (p : Nat × Nat), (b.cellAt p).mine = false →
      b.countAdjacentMines p = specNeighborMineCount b p := by
    intro b p hp
    unfold Board.countAdjacentMines specNeighborMineCount
    have : ((b.getAdjacentCells p).filter fun q => (b.cellAt q).mine) =
        ((b.getAdjacentCells p).filter fun q =>
          decide (q ≠ p) && (b.cellAt q).mine) := by
      apply List.filter_congr
      intro q _
      by_cases hq : q = p
      · subst hq
        rw [hp]
        simp
      · simp [hq]
    rw [this]
  refine ⟨hcount, ?_, ?_, ?_⟩
  · intro width height mines
    constructor
    · intro _ p
      rw [show (Minesweeper.freshGame width height mines).board =
        Board.mkBoard width height from rfl, Board.mkBoard_cellAt]
      rfl
    · intro x hx
      rw [show (Minesweeper.freshGame width height mines).board =
        Board.mkBoard width height from rfl, Board.mkBoard_cellAt] at hx
      cases hx
  · intro g draws p button h
    exact ⟨Minesweeper.RevealedSafe_handleBoardClick g draws p h,
      Minesweeper.RevealedSafe_handleBoardRightClick g p h,
      Minesweeper.RevealedSafe_handleBoardMouseDown g p button h⟩
  · intro g h p hp
    exact hcount g.board p (h.2 p hp)

theorem C10_displayed_count_witness :
    ((((Board.mkBoard 5 5).addMine (4, 4)).cellAt (0, 0)).mine = false ∧
      ((Board.mkBoard 5 5).addMine (4, 4)).countAdjacentMines (0, 0) =
        specNeighborMineCount ((Board.mkBoard 5 5).addMine (4, 4)) (0, 0)) ∧
    (RevealedSafe (Minesweeper.handleBoardClick
      (Minesweeper.freshGame 5 5 1) [(4, 4)] (0, 0)) ∧
      ((Minesweeper.handleBoardClick (Minesweeper.freshGame 5 5 1)
        [(4, 4)] (0, 0)).board.cellAt (0, 0)).revealed = true ∧
      (Minesweeper.handleBoardClick (Minesweeper.freshGame 5 5 1)
        [(4, 4)] (0, 0)).board.countAdjacentMines (0, 0) =
        specNeighborMineCount (Minesweeper.handleBoardClick
          (Minesweeper.freshGame 5 5 1) [(4, 4)] (0, 0)).board (0, 0)) := by
  have hfresh := C10_displayed_count.2.1 5 5 1
  have hsafe := (C10_displayed_count.2.2.1 (Minesweeper.freshGame 5 5 1)
    [(4, 4)] (0, 0) 0 hfresh).1
  exact ⟨⟨by decide, C10_displayed_count.1 _ (0, 0) (by decide)⟩,
    hsafe, by decide,
    C10_displayed_count.2.2.2 _ hsafe (0, 0) (by decide)⟩
